import Mathlib

/-!
Verification of the retrieval core of BM25-PDF-Search
(src/BM25-String-Embed-Rerank-PDF-Search.py), as a shallow embedding.

Strings are modelled as Lean `String`s (lists of characters); Python floats
are modelled as rationals `ℚ` except where a square root is required, in
which case the real value is used in statements and an order-isomorphic
rational key is used by the executable code (see `penKey`).
-/

namespace BM25Search

/-! ## Character-level helpers

`remove_accents` (line 76 of the source) uses `unicodedata.normalize('NFD', s)`
and drops combining marks.  The NFD decomposition and Python's `str.lower`
are external library behaviour; they are modelled here, faithful to the
spec's words ("case-fold, strip diacritics (decompose to base letters,
drop combining marks)"), restricted to the Latin characters exercised in
this development.  The combining acute/grave/... marks are the code points
U+0300..U+0308 and U+0327. -/

/-- Modelled from the spec: Unicode NFD decomposition (`unicodedata.normalize('NFD', ·)`),
restricted to precomposed Latin letters; every other character decomposes to itself. -/
def nfdChar (c : Char) : List Char :=
  match c with
  | 'é' => ['e', '́'] | 'è' => ['e', '̀'] | 'ê' => ['e', '̂'] | 'ë' => ['e', '̈']
  | 'á' => ['a', '́'] | 'à' => ['a', '̀'] | 'â' => ['a', '̂'] | 'ä' => ['a', '̈']
  | 'í' => ['i', '́'] | 'ì' => ['i', '̀'] | 'î' => ['i', '̂'] | 'ï' => ['i', '̈']
  | 'ó' => ['o', '́'] | 'ò' => ['o', '̀'] | 'ô' => ['o', '̂'] | 'ö' => ['o', '̈']
  | 'ú' => ['u', '́'] | 'ù' => ['u', '̀'] | 'û' => ['u', '̂'] | 'ü' => ['u', '̈']
  | 'ñ' => ['n', '̃'] | 'ç' => ['c', '̧']
  | 'É' => ['E', '́'] | 'È' => ['E', '̀'] | 'Ê' => ['E', '̂'] | 'Ë' => ['E', '̈']
  | 'Á' => ['A', '́'] | 'À' => ['A', '̀'] | 'Â' => ['A', '̂'] | 'Ä' => ['A', '̈']
  | 'Í' => ['I', '́'] | 'Ì' => ['I', '̀'] | 'Î' => ['I', '̂'] | 'Ï' => ['I', '̈']
  | 'Ó' => ['O', '́'] | 'Ò' => ['O', '̀'] | 'Ô' => ['O', '̂'] | 'Ö' => ['O', '̈']
  | 'Ú' => ['U', '́'] | 'Ù' => ['U', '̀'] | 'Û' => ['U', '̂'] | 'Ü' => ['U', '̈']
  | 'Ñ' => ['N', '̃'] | 'Ç' => ['C', '̧']
  | c => [c]

/-- Combining diacritical marks dropped by `remove_accents`
(`unicodedata.combining(c)` is nonzero). -/
def isCombining (c : Char) : Bool :=
  c = '̀' ∨ c = '́' ∨ c = '̂' ∨ c = '̃' ∨ c = '̈' ∨ c = '̧'

/-- Modelled from the spec: Python `str.lower` ("case-fold"), restricted to
ASCII letters and the precomposed Latin letters of `nfdChar`. -/
def pyLowerChar (c : Char) : Char :=
  if 'A' ≤ c ∧ c ≤ 'Z' then Char.ofNat (c.toNat + 32)
  else match c with
  | 'É' => 'é' | 'È' => 'è' | 'Ê' => 'ê' | 'Ë' => 'ë'
  | 'Á' => 'á' | 'À' => 'à' | 'Â' => 'â' | 'Ä' => 'ä'
  | 'Í' => 'í' | 'Ì' => 'ì' | 'Î' => 'î' | 'Ï' => 'ï'
  | 'Ó' => 'ó' | 'Ò' => 'ò' | 'Ô' => 'ô' | 'Ö' => 'ö'
  | 'Ú' => 'ú' | 'Ù' => 'ù' | 'Û' => 'û' | 'Ü' => 'ü'
  | 'Ñ' => 'ñ' | 'Ç' => 'ç'
  | c => c

/-- Python `s.lower()` on the character list of a string. -/
def pyLower (s : List Char) : List Char := s.map pyLowerChar

/-- `remove_accents` (source line 76): NFD-decompose, drop combining marks. -/
def removeAccents (s : List Char) : List Char :=
  (s.flatMap nfdChar).filter (fun c => ¬ isCombining c)

/-- `remove_accents(s.lower())` — the normalization applied throughout the
source to both indexed text and query material. -/
def normalize (s : List Char) : List Char := removeAccents (pyLower s)

/-- String-level wrapper for `normalize`. -/
def normStr (s : String) : List Char := normalize s.data

/-- Python whitespace, as used by `str.split()`, `str.strip()` and `\S`. -/
def isWs (c : Char) : Bool := c = ' ' ∨ c = '\t' ∨ c = '\n' ∨ c = '\r' ∨ c = '\x0b' ∨ c = '\x0c'

/-- Python `str.split()` with no argument: maximal runs of non-whitespace.
The recursion always advances by at least one character, so it is driven by
a fuel counter initialized to the input length (`pySplit` below), which
keeps the definition structurally recursive and hence kernel-evaluable. -/
def pySplitF : ℕ → List Char → List (List Char)
  | 0, _ => []
  | _, [] => []
  | fuel + 1, c :: rest =>
    if isWs c then pySplitF fuel rest
    else
      ((c :: rest).takeWhile (fun d => ¬ isWs d))
        :: pySplitF fuel (rest.dropWhile (fun d => ¬ isWs d))

def pySplit (l : List Char) : List (List Char) := pySplitF l.length l

/-- Python `str.strip()`: drop whitespace from both ends. -/
def pyStrip (s : List Char) : List Char :=
  ((s.dropWhile isWs).reverse.dropWhile isWs).reverse

/-- Word characters for the regex `\w` (with the Unicode letters of our table). -/
def isWordChar (c : Char) : Bool :=
  c.isAlphanum ∨ c = '_' ∨ (nfdChar c ≠ [c]) ∨ isCombining c

/-- `re.findall(r"\w+", s)`: maximal runs of word characters (fuel-driven
for the same reason as `pySplitF`). -/
def wordRunsF : ℕ → List Char → List (List Char)
  | 0, _ => []
  | _, [] => []
  | fuel + 1, c :: rest =>
    if isWordChar c then
      ((c :: rest).takeWhile isWordChar) :: wordRunsF fuel (rest.dropWhile isWordChar)
    else wordRunsF fuel rest

def wordRuns (l : List Char) : List (List Char) := wordRunsF l.length l

/-- Modelled from the spec: the fixed English stop-word list used by the
external `bm25s.tokenize(·, stopwords="en")` ("drop a fixed stop-word list
for the working language"). -/
def stopwords : List (List Char) :=
  ["the", "a", "an", "and", "or", "of", "in", "to", "is", "are", "was",
   "it", "for", "on", "with", "as", "at", "by", "that", "this"].map String.data

/-- Modelled from the spec: `bm25s.tokenize` (external bm25s library, not in
src/): "case-fold, strip diacritics (decompose to base letters, drop
combining marks), split on non-word-character boundaries, drop a fixed
stop-word list".  By construction it factors through `normalize`, which is
what tokenization symmetry rests on. -/
def tokenize (s : List Char) : List (List Char) :=
  (wordRuns (normalize s)).filter (fun w => w ∉ stopwords)

/-- `self.query_terms` (source line 836):
`[remove_accents(w.lower()) for w in re.findall(r"\w+", raw_query)]`. -/
def queryTermsOf (raw : List Char) : List (List Char) :=
  (wordRuns raw).map normalize

/-! ## A stable insertion sort

Python's `list.sort(key=..., reverse=...)` is a stable sort.  Any stable
sort over a total preorder computes the same list, so we model it by a
stable insertion sort parameterized by the strict "must come before"
relation `lt`:  `sortStableBy lt` puts `a` before `b` whenever `lt a b`,
and keeps the input order of elements unrelated by `lt`. -/

/-- Insert `x` (an element earlier in the input than everything in `l`)
into the sorted list `l`: `x` goes before the first element it is not
strictly after, hence before all elements tied with it. -/
def insStable (lt : α → α → Bool) (x : α) : List α → List α
  | [] => [x]
  | h :: t => if lt h x then h :: insStable lt x t else x :: h :: t

/-- Stable insertion sort. -/
def sortStableBy (lt : α → α → Bool) : List α → List α
  | [] => []
  | x :: xs => insStable lt x (sortStableBy lt xs)

/-- The relation that characterizes the sorted output: `a` may stand
(weakly) before `b`. -/
def notLtFlip (lt : α → α → Bool) (a b : α) : Prop := ¬ lt b a = true

/-! ## Data model

A `Chunk` is one corpus record (one page of extracted PDF text), source lines
146-177: a JSON object that may or may not carry a `'text'` field and, after
`load_embeddings_for_corpus`, may carry an `'embedding'`. -/

structure Chunk where
  text : Option String
  embedding : Option (List ℚ)
deriving DecidableEq, Repr

/-- `MAX_SEARCH_RESULTS` (source line 68). -/
def MAX_SEARCH_RESULTS : ℕ := 50

/-- `texts = [doc['text'] for doc in GLOBAL_CORPUS if 'text' in doc]`
(source line 167): the document list the BM25 index is built over. -/
def corpusTexts (corpus : List Chunk) : List String :=
  corpus.filterMap (·.text)

/-- `doc.get('text', '')` / `GLOBAL_CORPUS[i]['text']`-style total access used
when a chunk id must be dereferenced; out-of-range or missing text gives `""`
(the Python code would raise there; the theorems below restrict themselves to
in-range ids with text present, see their hypotheses). -/
def textAt (corpus : List Chunk) (i : ℕ) : String :=
  ((corpus.getD i ⟨none, none⟩).text).getD ""

/-! ## BM25 retrieval (source lines 944-952)

The index and `retrieve` live in the external `bm25s` library (not in src/).
The scoring function is abstracted as a parameter (the claims under proof
depend only on the ordering produced, never on score values; cf. spec §1:
"it must reproduce a standard Okapi BM25 ranking with verifiable output
ordering").  `retrieve` itself is modelled from the spec:
"`retrieve(query, k) -> [(chunk_id, score)]` sorted descending by score,
ties broken by ascending chunk id (for determinism)". -/

/-- Comparator of the spec's retrieve order: higher score first, ties by
ascending document id. -/
def ltRetrieve (a b : ℕ × ℚ) : Bool := b.2 < a.2 ∨ (a.2 = b.2 ∧ a.1 < b.1)

/-- Modelled from the spec: `bm25s.BM25.retrieve` over `n` indexed documents,
given the per-document scores of the tokenized query; returns the best `k`
documents in the spec's order. -/
def bm25Retrieve (score : ℕ → ℚ) (n k : ℕ) : List (ℕ × ℚ) :=
  (sortStableBy ltRetrieve ((List.range n).map (fun i => (i, score i)))).take k

/-- Python's stable `list.sort(key=lambda x: x[1], reverse=True)` comparator
(source line 951): strictly higher score first, ties keep input order. -/
def ltScore (a b : ℕ × ℚ) : Bool := b.2 < a.2

/-- Source lines 948-952: retrieve with `k = len(GLOBAL_CORPUS)`, pair up
ids and scores, stable-sort descending by score, truncate to
`MAX_SEARCH_RESULTS`. -/
def bm25SearchRanking (score : ℕ → ℚ) (n k : ℕ) : List (ℕ × ℚ) :=
  (sortStableBy ltScore (bm25Retrieve score n k)).take MAX_SEARCH_RESULTS

/-! ## Simple text search (source lines 302-313 and 852-869) -/

/-- The scan of `re.findall(r'"([^"]+)"|(\S+)', query)` (source line 303):
at each position, first try `"([^"]+)"` — a quote, a nonempty run of
non-quote characters, a closing quote — and on success emit the run as a
quoted phrase (group 1, `Sum.inl`); otherwise try `\S+` — a maximal
nonempty run of non-whitespace — and emit it as an unquoted word (group 2,
`Sum.inr`); otherwise (whitespace) advance one character.  Fuel-driven for
the same reason as `pySplitF` (each step consumes at least one character). -/
def scanTokensF : ℕ → List Char → List ((List Char) ⊕ (List Char))
  | 0, _ => []
  | _, [] => []
  | fuel + 1, c :: rest =>
    if c = '"' then
      match rest.dropWhile (fun d => ¬ d = '"') with
      | '"' :: rest'' =>
        if (rest.takeWhile (fun d => ¬ d = '"')).isEmpty then
          -- `""`: alternative 1 needs at least one enclosed character, so
          -- `\S+` matches the maximal non-space run starting at the quote
          Sum.inr ((c :: rest).takeWhile (fun d => ¬ isWs d))
            :: scanTokensF fuel (rest.dropWhile (fun d => ¬ isWs d))
        else Sum.inl (rest.takeWhile (fun d => ¬ d = '"')) :: scanTokensF fuel rest''
      | _ =>
        -- no closing quote: alternative 2
        Sum.inr ((c :: rest).takeWhile (fun d => ¬ isWs d))
          :: scanTokensF fuel (rest.dropWhile (fun d => ¬ isWs d))
    else if isWs c then scanTokensF fuel rest
    else
      Sum.inr ((c :: rest).takeWhile (fun d => ¬ isWs d))
        :: scanTokensF fuel (rest.dropWhile (fun d => ¬ isWs d))

def scanTokens (l : List Char) : List ((List Char) ⊕ (List Char)) :=
  scanTokensF l.length l

/-- `parse_simple_search_query` (source lines 302-313): split the findings
into quoted phrases and unquoted words.  Both groups of the regex are
nonempty whenever they match, so the `if phrase / elif word` guards of the
source never drop a finding. -/
def parse_simple_search_query (q : List Char) : List (List Char) × List (List Char) :=
  ((scanTokens q).filterMap (fun t => match t with | Sum.inl p => some p | Sum.inr _ => none),
   (scanTokens q).filterMap (fun t => match t with | Sum.inl _ => none | Sum.inr w => some w))

/-- The match predicate of the simple text search (source lines 860-866):
the chunk's normalized text must contain every normalized quoted phrase and
every normalized unquoted word as a contiguous substring.  A chunk without
a `'text'` field is matched against `""`. -/
def simpleMatches (phrasesN wordsN : List (List Char)) (doc : Chunk) : Bool :=
  let docTextNorm := match doc.text with
    | some t => normalize t.data
    | none => []
  phrasesN.all (fun p => decide (p <:+: docTextNorm)) ∧
    wordsN.all (fun w => decide (w <:+: docTextNorm))

/-- The "Simple text search" branch of `SearchApp.search`
(source lines 852-869): parse the raw query, normalize the parts, collect
the indices of all matching chunks in corpus order, each with score 1.0. -/
def simpleSearchResults (corpus : List Chunk) (raw : List Char) : List (ℕ × ℚ) :=
  let (phrases, words) := parse_simple_search_query raw
  let phrasesN := phrases.map normalize
  let wordsN := words.map normalize
  (corpus.enum.filter (fun iw => simpleMatches phrasesN wordsN iw.2)).map
    (fun iw => (iw.1, (1 : ℚ)))

/-! ## Exact text search rerank (source lines 283-297) -/

/-- Whether a candidate's normalized chunk text contains the normalized
query phrase as a contiguous substring (source line 292). -/
def exactMatchPred (corpus : List Chunk) (query_phrase : List Char) (ds : ℕ × ℚ) : Bool :=
  decide (normalize query_phrase <:+: normalize (textAt corpus ds.1).data)

/-- `rerank_exact_text` (source lines 283-297): one pass over the candidates
appending each to `matched` or `unmatched`, then `matched ++ unmatched`. -/
def rerank_exact_text (corpus : List Chunk) (top_docs : List (ℕ × ℚ))
    (query_phrase : List Char) : List (ℕ × ℚ) :=
  let mu := top_docs.foldl
    (fun (mu : List (ℕ × ℚ) × List (ℕ × ℚ)) ds =>
      if exactMatchPred corpus query_phrase ds
      then (mu.1 ++ [ds], mu.2) else (mu.1, mu.2 ++ [ds]))
    ([], [])
  mu.1 ++ mu.2

/-! ## Minimal span-based scoring (source lines 233-278)

`minimal_span_score` keeps a dict `found_terms` mapping each query term to
its most recent position inside the current sliding window
`all_positions[left..right]`.  A key is deleted exactly when the element
leaving at `left` is its most recent occurrence, so `found_terms` is
throughout the run the "last occurrence within the current window" map;
the embedding below represents the window explicitly and derives
`found_terms` from it. -/

/-- The positions list of one term: `positions[t]` after the loop of source
lines 238-241 (indices `i` with `words[i] == t`, ascending). -/
def posOf (words : List (List Char)) (t : List Char) : List ℕ :=
  (words.enum.filter (fun iw => iw.2 = t)).map (·.1)

/-- `len(found_terms) == len(norm_query_terms)` (source line 259): the
number of distinct query terms with an occurrence in the window equals the
length of the (possibly duplicated) query term list. -/
def coveredCode (nqts : List (List Char)) (w : List (ℕ × List Char)) : Bool :=
  ((nqts.dedup).filter (fun t => w.any (fun pt => pt.2 = t))).length = nqts.length

/-- `found_terms[t]`: the last (largest) position of term `t` inside the
window. -/
def lastPosIn (w : List (ℕ × List Char)) (t : List Char) : ℕ :=
  ((w.filter (fun pt => pt.2 = t)).map (·.1)).foldr max 0

/-- `found_terms.values()` as a list (one entry per distinct term present
in the window). -/
def foundVals (nqts : List (List Char)) (w : List (ℕ × List Char)) : List ℕ :=
  ((nqts.dedup).filter (fun t => w.any (fun pt => pt.2 = t))).map (lastPosIn w)

/-- `max(found_terms.values()) - min(found_terms.values()) + 1`
(source line 260). -/
def spanFound (nqts : List (List Char)) (w : List (ℕ × List Char)) : ℕ :=
  (foundVals nqts w).foldr max 0 - (foundVals nqts w).foldr min ((foundVals nqts w).foldr max 0) + 1

/-- The inner `while` of source lines 259-266: while every term is
represented in the window, record the span and advance `left`. -/
def shrinkLoop (nqts : List (List Char)) (best : ℕ) :
    List (ℕ × List Char) → ℕ × List (ℕ × List Char)
  | [] => (best, [])
  | h :: t =>
    if coveredCode nqts (h :: t) then
      shrinkLoop nqts (min best (spanFound nqts (h :: t))) t
    else (best, h :: t)

/-- The outer `for right in range(len(all_positions))` of source lines
255-266: extend the window by the next occurrence, then shrink. -/
def sweepLoop (nqts : List (List Char)) (best : ℕ) (window : List (ℕ × List Char)) :
    List (ℕ × List Char) → ℕ
  | [] => best
  | e :: rest =>
    let s := shrinkLoop nqts best (window ++ [e])
    sweepLoop nqts s.1 s.2 rest

/-- `minimal_span_score` (source lines 233-268). -/
def minimal_span_score (text : String) (query_terms : List (List Char)) : ℚ :=
  let normText := normalize text.data
  let nqts := query_terms.map normalize
  let words := pySplit normText
  if nqts.any (fun t => posOf words t = []) then 0
  else
    let allPositions := nqts.flatMap (fun t => (posOf words t).map (fun p => (p, t)))
    let allSorted := sortStableBy (fun a b => a.1 < b.1) allPositions
    let bestSpan := sweepLoop nqts (words.length + 1) [] allSorted
    1 / (bestSpan + 1)

/-- `rerank_minimal_span` (source lines 270-278): replace each candidate's
score by its minimal span score, then stable-sort descending. -/
def rerank_minimal_span (corpus : List Chunk) (top_docs : List (ℕ × ℚ))
    (query_terms : List (List Char)) : List (ℕ × ℚ) :=
  sortStableBy ltScore
    (top_docs.map (fun ds => (ds.1, minimal_span_score (textAt corpus ds.1) query_terms)))

/-- The claim-side notion: word-position window `[a, b]` contains at least
one occurrence of every distinct query term. -/
def coversWindow (words : List (List Char)) (keys : List (List Char)) (a b : ℕ) : Prop :=
  ∀ t ∈ keys, ∃ p ∈ posOf words t, a ≤ p ∧ p ≤ b

/-- The width of the shortest contiguous window (in word positions)
containing at least one occurrence of every distinct query term. -/
noncomputable def bestSpanWidth (words : List (List Char)) (keys : List (List Char)) : ℕ :=
  sInf {w | ∃ a b, a ≤ b ∧ coversWindow words keys a b ∧ w = b - a + 1}

/-! ## Vector retrieval: the "Embeddings search" branch
(source lines 895-931) -/

/-- `np.dot` on equal-length vectors. -/
def dotQ (a b : List ℚ) : ℚ := (List.zipWith (· * ·) a b).sum

/-- Step 1 (source lines 896-907): every chunk that has an `'embedding'` and
whose `text` (default `""`) is not whitespace-only, paired with its raw dot
product. -/
def embedCandidates (corpus : List Chunk) (qv : List ℚ) : List (ℕ × ℚ) :=
  corpus.enum.filterMap (fun ic =>
    match ic.2.embedding with
    | none => none
    | some emb =>
      if (pyStrip (ic.2.text.getD "").data).isEmpty then none
      else some (ic.1, dotQ emb qv))

/-- Steps 4 (source lines 916-925): the length penalty.  The final float
score `base * len ** 0.5` is represented by the pair `(base, len)`; its real
value is `base * Real.sqrt len` (see `finalScoreR`), and the `length == 0`
branch of the code is represented by `(0, 0)` (both denote `0.0`). -/
def penalize (corpus : List Chunk) (is : ℕ × ℚ) : ℕ × ℚ × ℕ :=
  let l := (textAt corpus is.1).data.length
  if 0 < l then (is.1, is.2, l) else (is.1, 0, 0)

/-- The real value of a represented final score. -/
noncomputable def finalScoreR (bl : ℚ × ℕ) : ℝ := (bl.1 : ℝ) * Real.sqrt bl.2

/-- A rational sort key order-isomorphic to `finalScoreR`:
`x ↦ x * |x|` is strictly increasing on ℝ and
`(b * sqrt l) * |b * sqrt l| = b * |b| * l`. -/
def penKey (bl : ℚ × ℕ) : ℚ := bl.1 * |bl.1| * bl.2

/-- Step 5 comparator (source line 928): stable sort descending by the final
score. -/
def ltFinal (a b : ℕ × ℚ × ℕ) : Bool := penKey b.2 < penKey a.2

/-- The full "Embeddings search" ranking (source lines 895-931): score,
stable-sort descending by raw dot product, truncate to
`MAX_SEARCH_RESULTS`, apply the length penalty, re-sort descending by the
penalized score. -/
def embedSearchRanking (corpus : List Chunk) (qv : List ℚ) : List (ℕ × ℚ × ℕ) :=
  sortStableBy ltFinal
    (((sortStableBy ltScore (embedCandidates corpus qv)).take MAX_SEARCH_RESULTS).map
      (penalize corpus))

/-! ## Ingestion and embedding attachment
(source lines 146-177 and 179-227)

A `SourceUnit` is one `.json` corpus file together with its optional sibling
`.emb` file (the unit's embedding source); `load_embeddings_for_corpus`
re-reads the same files, so both phases below consume the same unit list. -/

structure PageRec where
  text : Option String
deriving DecidableEq, Repr

structure EmbRec where
  embedding : Option (List ℚ)
deriving DecidableEq, Repr

structure SourceUnit where
  pages : List PageRec
  embFile : Option (List EmbRec)
deriving DecidableEq, Repr

/-- Source lines 146-164: `GLOBAL_CORPUS` after the text-loading loop —
every record of every unit, in unit order, no embeddings yet. -/
def initCorpus (units : List SourceUnit) : List Chunk :=
  units.flatMap (fun u => u.pages.map (fun r => ⟨r.text, none⟩))

/-- One iteration of the attachment loop (source lines 219-223): set the
embedding of the chunk at `idx` if the embedding record carries one.
(An out-of-range `idx` would raise in Python; it is unreachable from
`load_embeddings_for_corpus` below and modelled as a no-op.) -/
def attachOne (chunks : List Chunk) (idx : ℕ) (er : EmbRec) : List Chunk :=
  match er.embedding with
  | none => chunks
  | some v =>
    match chunks.get? idx with
    | none => chunks
    | some c => chunks.set idx ⟨c.text, some v⟩

/-- The attachment loop `for i in range(min_len)` over the (pre-truncated)
embedding records of one unit. -/
def attachRecords (chunks : List Chunk) (idx : ℕ) : List EmbRec → List Chunk
  | [] => chunks
  | er :: rest => attachRecords (attachOne chunks idx er) (idx + 1) rest

/-- `load_embeddings_for_corpus` (source lines 179-227), one unit at a time,
threading the running `corpus_index` and collecting one warning (the unit's
index) per unit whose embedding-record count mismatches its page count. -/
def loadEmbeddingsGo (chunks : List Chunk) (idx uidx : ℕ) (warns : List ℕ) :
    List SourceUnit → List Chunk × List ℕ
  | [] => (chunks, warns)
  | u :: us =>
    let numPages := u.pages.length
    match u.embFile with
    | none => loadEmbeddingsGo chunks (idx + numPages) (uidx + 1) warns us
    | some embs =>
      let warns' := if embs.length ≠ numPages then warns ++ [uidx] else warns
      let minLen := min numPages embs.length
      let chunks' := attachRecords chunks idx (embs.take minLen)
      loadEmbeddingsGo chunks' (idx + numPages) (uidx + 1) warns' us

/-- The corpus and mismatch warnings after
`load_corpus_and_initialize_bm25` + `load_embeddings_for_corpus`. -/
def load_embeddings_for_corpus (units : List SourceUnit) : List Chunk × List ℕ :=
  loadEmbeddingsGo (initCorpus units) 0 0 [] units

/-- The global corpus index of the first chunk of unit `k`
(the value of `corpus_index` when unit `k` is processed). -/
def offsetOf (units : List SourceUnit) (k : ℕ) : ℕ :=
  ((units.take k).map (fun u => u.pages.length)).sum

/-- The embedding that `load_embeddings_for_corpus` attaches to position `i`
of one unit: record `i`'s embedding when there is an embedding source and
`i < min(text_count, embedding_count)`, nothing otherwise. -/
def attachedEmb (u : SourceUnit) (i : ℕ) : Option (List ℚ) :=
  match u.embFile with
  | none => none
  | some es =>
    if i < min u.pages.length es.length then (es.getD i ⟨none⟩).embedding else none

/-- How an attachment combines with a chunk's previous embedding: a carried
embedding record overwrites, a missing one leaves the chunk alone. -/
def combineEmb (exp old : Option (List ℚ)) : Option (List ℚ) :=
  match exp with
  | some v => some v
  | none => old

/-- Whether a unit triggers the mismatch warning of source lines 212-214. -/
def unitMismatch (u : SourceUnit) : Bool :=
  match u.embFile with
  | none => false
  | some es => decide (es.length ≠ u.pages.length)

/-- The warning list (unit indices, starting at `uidx`) that the load emits. -/
def warnsOf : List SourceUnit → ℕ → List ℕ
  | [], _ => []
  | u :: us, uidx => (if unitMismatch u then [uidx] else []) ++ warnsOf us (uidx + 1)

/-! ## The search orchestrator: `SearchApp.search` (source lines 830-978)

The GUI state that the search path reads and writes is captured in
`AppState`; the external collaborators (the abstract BM25 scorer, the
embedding model `GLOBAL_EMBED_MODEL.query_embed` and the cross-encoder of
`rerank_with_embeddings`) are parameters.  Of `self.result_display`, only
the early-return messages are modelled verbatim; a successful search that
renders a result chunk sets `display` to `"showing results"`. -/

inductive SearchMethod
  | bm25 | simple | embeddings
deriving DecidableEq, Repr

inductive RerankMethod
  | noRerank | minimalSpan | exactText | embedRerank
deriving DecidableEq, Repr

/-- A stored result score: a plain float (`rat`), or the represented
`base * sqrt len` final score of the embeddings search (`pen`). -/
inductive ScoreV
  | rat (q : ℚ)
  | pen (base : ℚ) (len : ℕ)
deriving DecidableEq, Repr

structure Externals where
  /-- The tokenized-corpus/tokenized-query/document scoring function of the
  external BM25 index (`bm25s`).  Abstract: the claims depend only on the
  ordering the pipeline builds from these scores. -/
  bmScore : List (List (List Char)) → List (List Char) → ℕ → ℚ
  /-- `GLOBAL_EMBED_MODEL.query_embed` (source line 893). -/
  embedQuery : List Char → List ℚ
  /-- The pairwise cross-encoder score of `rerank_with_embeddings`
  (source lines 980-992). -/
  crossScore : List Char → String → ℚ

structure AppState where
  corpus : List Chunk
  bm25ModelPresent : Bool
  embeddingsPresent : Bool
  fastembedAvailable : Bool
  searchMethod : SearchMethod
  rerankMethod : RerankMethod
  queryText : String
  results : List (ℕ × ScoreV)
  currentResultIndex : ℕ
  display : String
deriving Repr

/-- `rerank_with_embeddings` (source lines 980-992): score every candidate
text against the raw query with the cross-encoder, stable-sort descending. -/
def rerank_with_embeddings (ext : Externals) (corpus : List Chunk)
    (top_docs : List (ℕ × ℚ)) (raw : List Char) : List (ℕ × ℚ) :=
  sortStableBy ltScore
    (top_docs.map (fun ds => (ds.1, ext.crossScore raw (textAt corpus ds.1))))

/-- The tokenized corpus the BM25 model was built over (source lines
167-171): the texts of the chunks that have one. -/
def corpusTokens (corpus : List Chunk) : List (List (List Char)) :=
  (corpusTexts corpus).map (fun t => tokenize t.data)

/-- `SearchApp.search` (source lines 830-978). -/
def search (ext : Externals) (st : AppState) : AppState :=
  let raw := pyStrip st.queryText.data
  let qterms := queryTermsOf raw
  if st.corpus.isEmpty then { st with display := "No corpus loaded." }
  else if raw.isEmpty then { st with display := "Please enter a search query." }
  else if st.searchMethod = .simple then
    let res := simpleSearchResults st.corpus raw
    { st with results := res.map (fun p => (p.1, ScoreV.rat p.2)),
              currentResultIndex := 0,
              display := if res.isEmpty then "No results found." else "showing results" }
  else if st.searchMethod = .embeddings then
    if ¬ st.embeddingsPresent then
      { st with display := "No .emb files found. Reverting to BM25 search.",
                searchMethod := .bm25 }
    else if ¬ st.fastembedAvailable then
      { st with display := "FastEmbed library not available. Reverting to BM25 search.",
                searchMethod := .bm25 }
    else
      let out := embedSearchRanking st.corpus (ext.embedQuery raw)
      { st with results := out.map (fun p => (p.1, ScoreV.pen p.2.1 p.2.2)),
                currentResultIndex := 0,
                display := if out.isEmpty then "No results found." else "showing results" }
  else
    if ¬ st.bm25ModelPresent then { st with display := "No BM25 model is available." }
    else
      let n := (corpusTexts st.corpus).length
      let score := ext.bmScore (corpusTokens st.corpus) (tokenize raw)
      let truncated := bm25SearchRanking score n st.corpus.length
      let final := match st.rerankMethod with
        | .noRerank => truncated
        | .minimalSpan => rerank_minimal_span st.corpus truncated qterms
        | .exactText => rerank_exact_text st.corpus truncated raw
        | .embedRerank =>
          if ¬ st.fastembedAvailable then truncated
          else rerank_with_embeddings ext st.corpus truncated raw
      { st with results := final.map (fun p => (p.1, ScoreV.rat p.2)),
                currentResultIndex := 0,
                display := if final.isEmpty then "No results found." else "showing results" }

/-! ## Concrete instances used by witnesses and counterexamples -/

/-- Trivial external collaborators: a constant BM25 scorer, an empty query
embedder, a constant cross-encoder. -/
def extConst : Externals :=
  ⟨fun _ _ _ => 1, fun _ => [], fun _ _ => 0⟩

/-- A loaded one-chunk state primed for an embeddings search without any
embedding in the corpus. -/
def stNoEmb : AppState :=
  { corpus := [⟨some "dog", none⟩]
    bm25ModelPresent := true
    embeddingsPresent := false
    fastembedAvailable := false
    searchMethod := .embeddings
    rerankMethod := .noRerank
    queryText := "dog"
    results := []
    currentResultIndex := 0
    display := "" }

/-- The §8 mismatch scenario: one text-source unit with 5 records whose
embedding-source unit has only 3 records. -/
def unitsMismatch : List SourceUnit :=
  [⟨[⟨some "p1"⟩, ⟨some "p2"⟩, ⟨some "p3"⟩, ⟨some "p4"⟩, ⟨some "p5"⟩],
    some [⟨some [1]⟩, ⟨some [2]⟩, ⟨some [3]⟩]⟩]

/-! # Lemmas -/

/-! ## The stable sort -/

theorem insStable_perm (lt : α → α → Bool) (x : α) (l : List α) :
    List.Perm (insStable lt x l) (x :: l) := by
  induction l with
  | nil => exact List.Perm.refl _
  | cons h t ih =>
    by_cases hc : lt h x = true
    · simp only [insStable, hc, if_true]
      exact (ih.cons h).trans (List.Perm.swap x h t)
    · have hc' : lt h x = false := by simpa using hc
      simp only [insStable, hc', Bool.false_eq_true, if_false]
      exact List.Perm.refl _

theorem sortStableBy_perm (lt : α → α → Bool) (l : List α) :
    List.Perm (sortStableBy lt l) l := by
  induction l with
  | nil => exact List.Perm.refl _
  | cons x xs ih => exact (insStable_perm lt x (sortStableBy lt xs)).trans (ih.cons x)

theorem insStable_pairwise (lt : α → α → Bool)
    (hneg : ∀ a b c, notLtFlip lt a b → notLtFlip lt b c → notLtFlip lt a c)
    (hasym : ∀ a b, lt a b = true → ¬ lt b a = true)
    (x : α) (l : List α) (hl : l.Pairwise (notLtFlip lt)) :
    (insStable lt x l).Pairwise (notLtFlip lt) := by
  induction l with
  | nil => simp [insStable]
  | cons h t ih =>
    rcases List.pairwise_cons.1 hl with ⟨hht, htp⟩
    by_cases hc : lt h x = true
    · simp only [insStable, hc, if_true]
      refine List.pairwise_cons.2 ⟨?_, ih htp⟩
      intro b hb
      rcases List.mem_cons.1 ((insStable_perm lt x t).mem_iff.1 hb) with hbx | hbt
      · rw [hbx]; exact hasym h x hc
      · exact hht b hbt
    · simp only [insStable, hc, if_false]
      refine List.pairwise_cons.2 ⟨?_, hl⟩
      intro b hb
      rcases List.mem_cons.1 hb with hbh | hbt
      · subst hbh; exact hc
      · exact hneg x h b hc (hht b hbt)

theorem sortStableBy_pairwise (lt : α → α → Bool)
    (hneg : ∀ a b c, notLtFlip lt a b → notLtFlip lt b c → notLtFlip lt a c)
    (hasym : ∀ a b, lt a b = true → ¬ lt b a = true)
    (l : List α) : (sortStableBy lt l).Pairwise (notLtFlip lt) := by
  induction l with
  | nil => exact List.Pairwise.nil
  | cons x xs ih => exact insStable_pairwise lt hneg hasym x _ ih

theorem insStable_filter_of_class (lt : α → α → Bool) (p : α → Bool)
    (hcls : ∀ a b, p a = true → p b = true → lt a b = false)
    (x : α) (l : List α) :
    (insStable lt x l).filter p =
      if p x then x :: l.filter p else l.filter p := by
  induction l with
  | nil => by_cases hx : p x = true <;> simp [insStable, hx]
  | cons h t ih =>
    by_cases hc : lt h x = true
    · simp only [insStable, hc, if_true]
      by_cases hx : p x = true
      · have hph : p h = false := by
          by_contra hph
          have h2 := hcls h x (by simpa using hph) hx
          rw [h2] at hc; exact Bool.false_ne_true hc
        simp only [List.filter_cons, hph, Bool.false_eq_true, if_false, ih, hx, if_true]
      · have hx' : p x = false := by simpa using hx
        simp only [List.filter_cons, ih, hx, if_false]
        by_cases hph : p h = true <;> simp [hph]
    · simp only [insStable, hc, if_false]
      by_cases hx : p x = true <;> simp [List.filter_cons, hx]

/-- Stability: the elements of one tie class (a predicate `p` whose members
are mutually unrelated by `lt`) appear in the output in their input order. -/
theorem sortStableBy_filter_of_class (lt : α → α → Bool) (p : α → Bool)
    (hcls : ∀ a b, p a = true → p b = true → lt a b = false)
    (l : List α) : (sortStableBy lt l).filter p = l.filter p := by
  induction l with
  | nil => rfl
  | cons x xs ih =>
    rw [sortStableBy, insStable_filter_of_class lt p hcls, ih, List.filter_cons]

/-- A list already sorted (every element weakly before all later ones) is
left unchanged. -/
theorem sortStableBy_eq_self_of_sorted (lt : α → α → Bool) (l : List α)
    (h : l.Pairwise (notLtFlip lt)) : sortStableBy lt l = l := by
  induction l with
  | nil => rfl
  | cons x xs ih =>
    rcases List.pairwise_cons.1 h with ⟨hx, hxs⟩
    rw [sortStableBy, ih hxs]
    cases xs with
    | nil => rfl
    | cons y t =>
      have hy : ¬ lt y x = true := hx y (List.mem_cons_self y t)
      simp [insStable, hy]

theorem mem_sortStableBy (lt : α → α → Bool) (l : List α) (a : α) :
    a ∈ sortStableBy lt l ↔ a ∈ l :=
  (sortStableBy_perm lt l).mem_iff

theorem getD_eq_get (l : List α) (d : α) (i : ℕ) (hi : i < l.length) :
    l.getD i d = l.get ⟨i, hi⟩ := by
  simp [List.getD_eq_getElem?_getD, List.getElem?_eq_getElem hi]

theorem getD_map_eq (l : List α) (f : α → β) (d : β) (i : ℕ) (hi : i < l.length) :
    (l.map f).getD i d = f (l.get ⟨i, hi⟩) := by
  have hi' : i < (l.map f).length := by simpa using hi
  rw [getD_eq_get _ d i hi']
  simp

/-! ## The exact-text rerank: the accumulating loop is a stable partition -/

theorem foldl_partition (p : α → Bool) (l : List α) (m u : List α) :
    l.foldl
      (fun (mu : List α × List α) x =>
        if p x then (mu.1 ++ [x], mu.2) else (mu.1, mu.2 ++ [x]))
      (m, u) = (m ++ l.filter p, u ++ l.filter (fun x => ¬ p x)) := by
  induction l generalizing m u with
  | nil => simp
  | cons x xs ih =>
    by_cases hx : p x = true
    · simp [List.foldl_cons, hx, ih]
    · have hx' : p x = false := by simpa using hx
      simp [List.foldl_cons, hx', ih]

/-- C9.  `rerank_exact_text` is a stable partition: candidates whose
normalized text contains the full normalized query as a substring come
first in their original relative order, followed by all remaining
candidates in their original relative order, each (chunk id, score) pair
unchanged.  The hypothesis pins the domain on which `textAt` agrees with
the Python subscripts `GLOBAL_CORPUS[doc_id]['text']` (in-range ids whose
chunk has a `'text'`). -/
theorem rerank_exact_text_stable_partition (corpus : List Chunk)
    (top_docs : List (ℕ × ℚ)) (query_phrase : List Char)
    (hdom : ∀ ds ∈ top_docs, ds.1 < corpus.length ∧
      ((corpus.getD ds.1 ⟨none, none⟩).text).isSome) :
    rerank_exact_text corpus top_docs query_phrase =
      top_docs.filter (exactMatchPred corpus query_phrase) ++
        top_docs.filter (fun ds => ¬ exactMatchPred corpus query_phrase ds) := by
  unfold rerank_exact_text
  rw [foldl_partition]
  simp

/-- C9 witness: a two-candidate list around a two-chunk corpus; the second
candidate matches `"dog"`, the first does not, so the partition swaps them. -/
theorem rerank_exact_text_stable_partition_witness :
    (∀ ds ∈ [((0 : ℕ), (2 : ℚ)), (1, 1)],
      ds.1 < ([⟨some "cat here", none⟩, ⟨some "a dog", none⟩] : List Chunk).length ∧
        ((([⟨some "cat here", none⟩, ⟨some "a dog", none⟩] : List Chunk).getD ds.1
          ⟨none, none⟩).text).isSome) ∧
    rerank_exact_text [⟨some "cat here", none⟩, ⟨some "a dog", none⟩]
        [(0, 2), (1, 1)] "dog".data = [(1, 1), (0, 2)] := by
  refine ⟨by decide, ?_⟩
  rw [rerank_exact_text_stable_partition _ _ _ (by decide)]
  decide

/-! ## C10: BM25 document indices and corpus ids -/

theorem corpusTexts_of_allSome (corpus : List Chunk)
    (h : ∀ c ∈ corpus, c.text.isSome) :
    corpusTexts corpus = corpus.map (fun c => c.text.getD "") := by
  induction corpus with
  | nil => rfl
  | cons c cs ih =>
    have hc := h c (List.mem_cons_self c cs)
    rcases Option.isSome_iff_exists.1 hc with ⟨t, ht⟩
    simp only [corpusTexts, List.filterMap_cons, ht, List.map_cons]
    rw [← corpusTexts]
    rw [ih (fun d hd => h d (List.mem_cons_of_mem c hd))]
    simp [ht]

theorem mem_bm25SearchRanking_fst_lt (score : ℕ → ℚ) (n k : ℕ) (p : ℕ × ℚ)
    (hp : p ∈ bm25SearchRanking score n k) : p.1 < n := by
  unfold bm25SearchRanking bm25Retrieve at hp
  have h1 := List.mem_of_mem_take hp
  rw [mem_sortStableBy] at h1
  have h2 := List.mem_of_mem_take h1
  rw [mem_sortStableBy] at h2
  rcases List.mem_map.1 h2 with ⟨i, hi, hip⟩
  rw [← hip]
  exact List.mem_range.1 hi

/-- C10.  When every loaded chunk record has a `'text'` field, the document
list the BM25 index is built over agrees position-by-position with the
corpus, so every id returned by the BM25 ranking addresses the chunk whose
text was scored; and without that precondition the alignment can fail (the
index skips text-less records). -/
theorem bm25_index_alignment (corpus : List Chunk) (score : ℕ → ℚ) (k : ℕ)
    (h : ∀ c ∈ corpus, c.text.isSome) :
    (corpusTexts corpus).length = corpus.length ∧
    (∀ i, i < corpus.length → (corpusTexts corpus).getD i "" = textAt corpus i) ∧
    (∀ p ∈ bm25SearchRanking score (corpusTexts corpus).length k,
      p.1 < corpus.length ∧ (corpusTexts corpus).getD p.1 "" = textAt corpus p.1) ∧
    (¬ ∀ corpus' : List Chunk,
      (corpusTexts corpus').getD 0 "" = textAt corpus' 0) := by
  have hmap := corpusTexts_of_allSome corpus h
  have hlen : (corpusTexts corpus).length = corpus.length := by
    rw [hmap, List.length_map]
  have hgetD : ∀ i, i < corpus.length → (corpusTexts corpus).getD i "" = textAt corpus i := by
    intro i hi
    rw [hmap, getD_map_eq _ _ _ i hi, textAt, getD_eq_get _ _ i hi]
  refine ⟨hlen, hgetD, ?_, ?_⟩
  · intro p hp
    have := mem_bm25SearchRanking_fst_lt _ _ _ _ hp
    rw [hlen] at this
    exact ⟨this, hgetD _ this⟩
  · intro hall
    have hbad := hall [⟨none, none⟩, ⟨some "b", none⟩]
    revert hbad
    decide

/-- C10 witness: a three-chunk corpus, all with text, a concrete scorer. -/
theorem bm25_index_alignment_witness :
    (∀ c ∈ ([⟨some "x", none⟩, ⟨some "y", none⟩, ⟨some "z", none⟩] : List Chunk),
      c.text.isSome) ∧
    (corpusTexts [⟨some "x", none⟩, ⟨some "y", none⟩, ⟨some "z", none⟩]).length = 3 := by
  refine ⟨by decide, ?_⟩
  exact (bm25_index_alignment
    [⟨some "x", none⟩, ⟨some "y", none⟩, ⟨some "z", none⟩]
    (fun _ => 0) 3 (by decide)).1

/-! ## C4: truncation policy of the three retrieval strategies -/

/-- C4 counterexample: a corpus of 51 chunks all matching the one-word query
`"a"`; the simple text search returns all 51 of them, exceeding
`MAX_SEARCH_RESULTS = 50` — the claimed cap does not hold for the simple
text search strategy. -/
theorem simple_search_exceeds_cap :
    (simpleSearchResults (List.replicate 51 ⟨some "a", none⟩) "a".data).length = 51 ∧
      MAX_SEARCH_RESULTS < 51 := by
  constructor
  · decide
  · decide

/-- C4 amended: the BM25 ranking and the embeddings-search ranking are
truncated to at most `MAX_SEARCH_RESULTS` candidates, while the simple text
search returns every matching chunk with no cap (its length equals the
number of matching chunks). -/
theorem retrieval_truncation_policy (score : ℕ → ℚ) (n k : ℕ)
    (corpus corpus'' : List Chunk) (qv : List ℚ) (raw : List Char) :
    (bm25SearchRanking score n k).length ≤ MAX_SEARCH_RESULTS ∧
    (embedSearchRanking corpus qv).length ≤ MAX_SEARCH_RESULTS ∧
    (simpleSearchResults corpus'' raw).length =
      ((corpus''.enum).filter (fun iw =>
        simpleMatches ((parse_simple_search_query raw).1.map normalize)
          ((parse_simple_search_query raw).2.map normalize) iw.2)).length := by
  refine ⟨List.length_take_le _ _, ?_, ?_⟩
  · unfold embedSearchRanking
    rw [(sortStableBy_perm _ _).length_eq, List.length_map]
    exact List.length_take_le _ _
  · unfold simpleSearchResults
    rw [List.length_map]

/-! ## C1: the BM25 ranking is sorted descending with ascending-id ties,
deterministically -/

theorem ltRetrieve_neg_trans :
    ∀ a b c : ℕ × ℚ, notLtFlip ltRetrieve a b → notLtFlip ltRetrieve b c →
      notLtFlip ltRetrieve a c := by
  intro a b c hab hbc
  simp only [notLtFlip, ltRetrieve, decide_eq_true_eq, not_or, not_and, not_lt] at hab hbc ⊢
  obtain ⟨hab1, hab2⟩ := hab
  obtain ⟨hbc1, hbc2⟩ := hbc
  refine ⟨le_trans hbc1 hab1, fun hca => ?_⟩
  have hba : b.2 = a.2 := le_antisymm hab1 (hca ▸ hbc1)
  have hcb : c.2 = b.2 := by rw [hba]; exact hca
  exact le_trans (hab2 hba) (hbc2 hcb)

theorem ltRetrieve_asymm :
    ∀ a b : ℕ × ℚ, ltRetrieve a b = true → ¬ ltRetrieve b a = true := by
  intro a b hab hba
  simp only [ltRetrieve, decide_eq_true_eq] at hab hba
  rcases hab with h1 | ⟨h1, h2⟩ <;> rcases hba with h3 | ⟨h3, h4⟩
  · exact absurd (lt_trans h1 h3) (lt_irrefl _)
  · exact absurd h1 (h3 ▸ lt_irrefl _)
  · exact absurd h3 (h1 ▸ lt_irrefl _)
  · exact absurd (lt_trans h2 h4) (lt_irrefl _)

/-- C1.  For every scorer, corpus size and `k`, the candidate list of the
BM25 search branch is sorted strictly descending by score with ties broken
by ascending chunk id; and the ranking is a pure function of the corpus and
query, so two calls with the same inputs return the identical ordering
(the second conjunct is definitional — the embedding has no hidden state,
mirroring the code, whose ranking depends only on the index and the
query). -/
theorem bm25_ranking_sorted_desc_tiebreak_asc (score : ℕ → ℚ) (n k : ℕ) :
    (bm25SearchRanking score n k).Pairwise
      (fun a b => b.2 < a.2 ∨ (a.2 = b.2 ∧ a.1 < b.1)) ∧
    bm25SearchRanking score n k = bm25SearchRanking score n k := by
  refine ⟨?_, rfl⟩
  set enum := (List.range n).map (fun i => (i, score i)) with henum
  have hpair1 : (sortStableBy ltRetrieve enum).Pairwise (notLtFlip ltRetrieve) :=
    sortStableBy_pairwise ltRetrieve ltRetrieve_neg_trans ltRetrieve_asymm enum
  have hfst : List.Perm ((sortStableBy ltRetrieve enum).map Prod.fst) (List.range n) := by
    have h1 : List.Perm ((sortStableBy ltRetrieve enum).map Prod.fst) (enum.map Prod.fst) :=
      (sortStableBy_perm ltRetrieve enum).map Prod.fst
    have h2 : enum.map Prod.fst = List.range n := by
      rw [henum, List.map_map]
      have hid : (Prod.fst ∘ fun i : ℕ => (i, score i)) = id := rfl
      rw [hid, List.map_id]
    rw [h2] at h1
    exact h1
  have hnodup : ((sortStableBy ltRetrieve enum).map Prod.fst).Nodup :=
    (hfst.nodup_iff).2 (List.nodup_range n)
  have hne : (sortStableBy ltRetrieve enum).Pairwise (fun a b => a.1 ≠ b.1) :=
    List.pairwise_map.1 hnodup
  have hR : (sortStableBy ltRetrieve enum).Pairwise
      (fun a b => b.2 < a.2 ∨ (a.2 = b.2 ∧ a.1 < b.1)) := by
    refine (hpair1.and hne).imp ?_
    rintro a b ⟨hflip, hne'⟩
    simp only [notLtFlip, ltRetrieve, decide_eq_true_eq, not_or, not_and, not_lt] at hflip
    obtain ⟨h1, h2⟩ := hflip
    rcases lt_or_eq_of_le h1 with hlt | heq
    · exact Or.inl hlt
    · exact Or.inr ⟨heq.symm, lt_of_le_of_ne (h2 heq) hne'⟩
  have hRk : (bm25Retrieve score n k).Pairwise
      (fun a b => b.2 < a.2 ∨ (a.2 = b.2 ∧ a.1 < b.1)) :=
    hR.sublist (List.take_sublist _ _)
  have hsorted : (bm25Retrieve score n k).Pairwise (notLtFlip ltScore) := by
    refine hRk.imp ?_
    intro a b hab
    simp only [notLtFlip, ltScore, decide_eq_true_eq, not_lt]
    rcases hab with h | ⟨h, _⟩
    · exact le_of_lt h
    · exact le_of_eq h.symm
  unfold bm25SearchRanking
  rw [sortStableBy_eq_self_of_sorted ltScore _ hsorted]
  exact hRk.sublist (List.take_sublist _ _)

/-! ## C2: tokenization symmetry -/

/-- C2.  Strings that agree after case-folding and accent-stripping
(`remove_accents(s.lower())`) tokenize identically, because the one
tokenizer applied to both indexed text (line 170) and queries (line 948)
factors through that normalization; hence the BM25 search ranking is
invariant under replacing the query by a version differing only in case or
diacritics, and likewise for the indexed side; concretely, the query
`"café"` and an indexed `"CAFE"` produce the same single term `"cafe"`. -/
theorem tokenization_symmetry (q1 q2 : List Char) (h : normalize q1 = normalize q2)
    (ext : Externals) (corpus : List Chunk) (n k : ℕ)
    (c1 c2 : List Chunk)
    (hc : (corpusTexts c1).map (fun t => normalize t.data) =
      (corpusTexts c2).map (fun t => normalize t.data)) :
    tokenize q1 = tokenize q2 ∧
    bm25SearchRanking (ext.bmScore (corpusTokens corpus) (tokenize q1)) n k =
      bm25SearchRanking (ext.bmScore (corpusTokens corpus) (tokenize q2)) n k ∧
    corpusTokens c1 = corpusTokens c2 ∧
    tokenize "café".data = tokenize "CAFE".data ∧
    tokenize "café".data = ["cafe".data] := by
  have htok : tokenize q1 = tokenize q2 := by
    unfold tokenize
    rw [h]
  have hfactor : ∀ l : List String,
      l.map (fun t => tokenize t.data) =
        (l.map (fun t => normalize t.data)).map
          (fun nt => (wordRuns nt).filter (fun w => w ∉ stopwords)) := by
    intro l
    rw [List.map_map]
    rfl
  refine ⟨htok, by rw [htok], ?_, by decide, by decide⟩
  unfold corpusTokens
  rw [hfactor, hfactor, hc]

/-- C2 witness: `q1 = "café"`, `q2 = "CAFE"`, a concrete corpus pair whose
texts differ only by case/diacritics. -/
theorem tokenization_symmetry_witness :
    normalize "café".data = normalize "CAFE".data ∧
    (corpusTexts [⟨some "CAFÉ dog", none⟩]).map (fun t => normalize t.data) =
      (corpusTexts [⟨some "cafe dog", none⟩]).map (fun t => normalize t.data) ∧
    corpusTokens [⟨some "CAFÉ dog", none⟩] = corpusTokens [⟨some "cafe dog", none⟩] := by
  refine ⟨by decide, by decide, ?_⟩
  exact (tokenization_symmetry "café".data "CAFE".data (by decide) extConst [] 0 0
    [⟨some "CAFÉ dog", none⟩] [⟨some "cafe dog", none⟩] (by decide)).2.2.1

/-! ## C3: the vector-retrieval fallback -/

/-- C3 counterexample: with a loaded corpus, a non-empty query, and no
embedding on any chunk, the embeddings-search call reports the fallback
notice and switches the search method to BM25, but returns with the stored
results untouched (here `[]`), NOT with the BM25 ranking of that query
(which a direct BM25 call on the same state produces: `[(0, 1)]`). -/
theorem embeddings_fallback_no_ranking :
    (search extConst stNoEmb).display = "No .emb files found. Reverting to BM25 search." ∧
    (search extConst stNoEmb).searchMethod = SearchMethod.bm25 ∧
    (search extConst stNoEmb).results = [] ∧
    (search extConst { stNoEmb with searchMethod := .bm25 }).results =
      [(0, ScoreV.rat 1)] ∧
    ([] : List (ℕ × ScoreV)) ≠ [(0, ScoreV.rat 1)] := by
  refine ⟨?_, ?_, ?_, ?_, by decide⟩ <;> decide

/-- C3 amended: when vector retrieval is requested but no chunk carries an
embedding, the search call reports the fallback notice, switches the
search method to BM25 and leaves the stored results unchanged; the next
search call (same query, no reranking, BM25 model present) then returns
the BM25 ranking. -/
theorem embeddings_fallback_behavior (ext : Externals) (st : AppState)
    (hc : st.corpus ≠ []) (hq : pyStrip st.queryText.data ≠ [])
    (hm : st.searchMethod = .embeddings) (he : st.embeddingsPresent = false) :
    (search ext st).display = "No .emb files found. Reverting to BM25 search." ∧
    (search ext st).searchMethod = .bm25 ∧
    (search ext st).results = st.results ∧
    (st.bm25ModelPresent = true → st.rerankMethod = .noRerank →
      (search ext (search ext st)).results =
        (bm25SearchRanking
          (ext.bmScore (corpusTokens st.corpus) (tokenize (pyStrip st.queryText.data)))
          (corpusTexts st.corpus).length st.corpus.length).map
          (fun p => (p.1, ScoreV.rat p.2))) := by
  have hc' : st.corpus.isEmpty = false := by
    cases hcc : st.corpus with
    | nil => exact absurd hcc hc
    | cons a l => rfl
  have hq' : (pyStrip st.queryText.data).isEmpty = false := by
    cases hqq : pyStrip st.queryText.data with
    | nil => exact absurd hqq hq
    | cons a l => rfl
  have hstep : search ext st =
      { st with display := "No .emb files found. Reverting to BM25 search.",
                searchMethod := .bm25 } := by
    unfold search
    rw [hm, he]
    simp [hc', hq']
  refine ⟨by rw [hstep], by rw [hstep], by rw [hstep], ?_⟩
  intro hbm hrr
  rw [hstep]
  unfold search
  simp [hc', hq', hbm, hrr]

/-- C3 amended witness: the concrete no-embedding state. -/
theorem embeddings_fallback_behavior_witness :
    stNoEmb.corpus ≠ [] ∧ pyStrip stNoEmb.queryText.data ≠ [] ∧
    (search extConst (search extConst stNoEmb)).results =
      (bm25SearchRanking
        (extConst.bmScore (corpusTokens stNoEmb.corpus)
          (tokenize (pyStrip stNoEmb.queryText.data)))
        (corpusTexts stNoEmb.corpus).length stNoEmb.corpus.length).map
        (fun p => (p.1, ScoreV.rat p.2)) := by
  refine ⟨by decide, by decide, ?_⟩
  exact (embeddings_fallback_behavior extConst stNoEmb (by decide) (by decide)
    (by decide) (by decide)).2.2.2 (by decide) (by decide)

/-! ## C5: semantics of the simple text search -/

theorem enum_pairwise_fst_lt (l : List α) :
    l.enum.Pairwise (fun a b : ℕ × α => a.1 < b.1) := by
  rw [List.pairwise_iff_get]
  intro i j hij
  rw [List.get_enum, List.get_enum]
  simpa using hij

/-- C5.  The simple text search parses the raw query into quoted phrases
and whitespace-separated unquoted words; a chunk is in the result iff its
normalized text contains every normalized quoted phrase and every
normalized unquoted word as a contiguous substring; results are in
ascending corpus id order, each with score exactly 1.0.  In particular
(last conjunct) a query of a word plus a quoted phrase does not match a
chunk containing only the phrase. -/
theorem simple_search_semantics (corpus : List Chunk) (raw : List Char) :
    (∀ i s, ((i, s) ∈ simpleSearchResults corpus raw ↔
      (s = 1 ∧ ∃ c, corpus.get? i = some c ∧
        simpleMatches ((parse_simple_search_query raw).1.map normalize)
          ((parse_simple_search_query raw).2.map normalize) c = true))) ∧
    (simpleSearchResults corpus raw).Pairwise (fun a b => a.1 < b.1) ∧
    simpleSearchResults [⟨some "this is an exact phrase here", none⟩]
      "foo \"exact phrase\"".data = [] := by
  refine ⟨?_, ?_, by decide⟩
  · intro i s
    unfold simpleSearchResults
    constructor
    · intro hmem
      rcases List.mem_map.1 hmem with ⟨iw, hiw, heq⟩
      rcases List.mem_filter.1 hiw with ⟨hiw2, hmatch⟩
      have h1a : iw.1 = i := congrArg Prod.fst heq
      have h1b : (1 : ℚ) = s := congrArg Prod.snd heq
      refine ⟨h1b.symm, iw.2, ?_, ?_⟩
      · have h2 := List.mk_mem_enum_iff_getElem?.1
          (show (iw.1, iw.2) ∈ corpus.enum by simpa using hiw2)
        rw [← List.get?_eq_getElem?] at h2
        rw [← h1a]
        exact h2
      · exact hmatch
    · rintro ⟨hs, c, hget, hmatch⟩
      refine List.mem_map.2 ⟨(i, c), List.mem_filter.2 ⟨?_, hmatch⟩, by rw [hs]⟩
      exact List.mk_mem_enum_iff_getElem?.2 (by rw [← List.get?_eq_getElem?]; exact hget)
  · refine List.Pairwise.map _ ?_ (List.Pairwise.filter _ (enum_pairwise_fst_lt corpus))
    intro a b hab
    exact hab

/-! ## C8: embedding attachment -/

theorem attachOne_length (chunks : List Chunk) (idx : ℕ) (er : EmbRec) :
    (attachOne chunks idx er).length = chunks.length := by
  unfold attachOne
  cases er.embedding with
  | none => rfl
  | some v =>
    cases h : chunks.get? idx with
    | none => rfl
    | some c => simp [List.length_set]

theorem attachOne_getElem?_ne (chunks : List Chunk) (idx : ℕ) (er : EmbRec)
    (m : ℕ) (hm : m ≠ idx) : (attachOne chunks idx er)[m]? = chunks[m]? := by
  unfold attachOne
  cases er.embedding with
  | none => rfl
  | some v =>
    cases h : chunks.get? idx with
    | none => rfl
    | some c => simp [List.getElem?_set_ne (Ne.symm hm)]

theorem attachOne_getElem?_eq (chunks : List Chunk) (idx : ℕ) (er : EmbRec) :
    (attachOne chunks idx er)[idx]? =
      chunks[idx]?.map (fun c => ⟨c.text, combineEmb er.embedding c.embedding⟩) := by
  unfold attachOne combineEmb
  cases he : er.embedding with
  | none =>
    cases h : chunks[idx]? with
    | none => simp [h]
    | some c => simp [h]
  | some v =>
    rw [List.get?_eq_getElem?]
    cases h : chunks[idx]? with
    | none => simp [h]
    | some c =>
      have hlt : idx < chunks.length := by
        by_contra hge
        rw [List.getElem?_eq_none (by omega)] at h
        exact Option.noConfusion h
      simp [h, List.getElem?_set_self', List.getElem?_eq_getElem hlt]

theorem attachRecords_length (ers : List EmbRec) :
    ∀ (chunks : List Chunk) (idx : ℕ),
      (attachRecords chunks idx ers).length = chunks.length := by
  induction ers with
  | nil => intro chunks idx; rfl
  | cons er rest ih =>
    intro chunks idx
    rw [attachRecords, ih, attachOne_length]

theorem attachRecords_getElem?_outside (ers : List EmbRec) :
    ∀ (chunks : List Chunk) (idx m : ℕ), (m < idx ∨ idx + ers.length ≤ m) →
      (attachRecords chunks idx ers)[m]? = chunks[m]? := by
  induction ers with
  | nil => intro chunks idx m _; rfl
  | cons er rest ih =>
    intro chunks idx m hm
    simp only [List.length_cons] at hm
    have hm1 : m < idx + 1 ∨ (idx + 1) + rest.length ≤ m := by omega
    have hm2 : m ≠ idx := by omega
    rw [attachRecords, ih _ _ _ hm1, attachOne_getElem?_ne _ _ _ _ hm2]

theorem attachRecords_getElem?_inside (ers : List EmbRec) :
    ∀ (chunks : List Chunk) (idx i : ℕ), i < ers.length →
      (attachRecords chunks idx ers)[idx + i]? =
        chunks[idx + i]?.map
          (fun c => ⟨c.text, combineEmb (ers.getD i ⟨none⟩).embedding c.embedding⟩) := by
  induction ers with
  | nil => intro chunks idx i hi; simp at hi
  | cons er rest ih =>
    intro chunks idx i hi
    cases i with
    | zero =>
      rw [attachRecords,
        attachRecords_getElem?_outside rest _ _ _ (by left; omega)]
      simp only [Nat.add_zero, List.getD_cons_zero]
      exact attachOne_getElem?_eq chunks idx er
    | succ j =>
      have hj : j < rest.length := by simpa using hi
      have harr : idx + (j + 1) = (idx + 1) + j := by omega
      rw [attachRecords, harr, ih _ _ _ hj,
        attachOne_getElem?_ne _ _ _ _ (by omega)]
      rfl

/-- The master characterization of `loadEmbeddingsGo`: length preserved,
the region before `idx` untouched, every unit's region rewritten according
to that unit's own records, and the warning list appended. -/
theorem loadEmbeddingsGo_spec (us : List SourceUnit) :
    ∀ (chunks : List Chunk) (idx uidx : ℕ) (warns : List ℕ),
      (loadEmbeddingsGo chunks idx uidx warns us).1.length = chunks.length ∧
      (∀ m, m < idx → (loadEmbeddingsGo chunks idx uidx warns us).1[m]? = chunks[m]?) ∧
      (∀ k (hk : k < us.length) i, i < (us.get ⟨k, hk⟩).pages.length →
        (loadEmbeddingsGo chunks idx uidx warns us).1[idx + offsetOf us k + i]? =
          chunks[idx + offsetOf us k + i]?.map
            (fun c => ⟨c.text, combineEmb (attachedEmb (us.get ⟨k, hk⟩) i) c.embedding⟩)) ∧
      (loadEmbeddingsGo chunks idx uidx warns us).2 = warns ++ warnsOf us uidx := by
  induction us with
  | nil =>
    intro chunks idx uidx warns
    exact ⟨rfl, fun m _ => rfl, fun k hk => absurd hk (by simp),
      by simp [loadEmbeddingsGo, warnsOf]⟩
  | cons u us' ih =>
    intro chunks idx uidx warns
    cases hu : u.embFile with
    | none =>
      have hgo : loadEmbeddingsGo chunks idx uidx warns (u :: us') =
          loadEmbeddingsGo chunks (idx + u.pages.length) (uidx + 1) warns us' := by
        conv_lhs => rw [loadEmbeddingsGo]
        rw [hu]
      obtain ⟨iha, ihb, ihc, ihd⟩ := ih chunks (idx + u.pages.length) (uidx + 1) warns
      rw [hgo]
      refine ⟨iha, fun m hm => ihb m (by omega), ?_, ?_⟩
      · intro k hk i hi
        cases k with
        | zero =>
          have hoff : offsetOf (u :: us') 0 = 0 := rfl
          rw [hoff]
          have h1 := ihb (idx + 0 + i) (by simp at hi ⊢; omega)
          rw [h1]
          have hemb : attachedEmb u i = none := by unfold attachedEmb; rw [hu]
          have : (u :: us').get ⟨0, hk⟩ = u := rfl
          rw [this, hemb]
          cases chunks[idx + 0 + i]? with
          | none => rfl
          | some c => rfl
        | succ k' =>
          have hk' : k' < us'.length := by simpa using hk
          have hoff : offsetOf (u :: us') (k' + 1) = u.pages.length + offsetOf us' k' := by
            unfold offsetOf
            simp [List.take_succ_cons]
          have hget : (u :: us').get ⟨k' + 1, hk⟩ = us'.get ⟨k', hk'⟩ := rfl
          have harr : idx + offsetOf (u :: us') (k' + 1) + i =
              (idx + u.pages.length) + offsetOf us' k' + i := by rw [hoff]; omega
          rw [hget, harr]
          exact ihc k' hk' i (by rw [← hget]; exact hi)
      · rw [ihd]
        have hmis : unitMismatch u = false := by unfold unitMismatch; rw [hu]
        have hwc : warnsOf (u :: us') uidx =
            (if unitMismatch u then [uidx] else []) ++ warnsOf us' (uidx + 1) := rfl
        rw [hwc, hmis]
        simp
    | some es =>
      have hml : min u.pages.length es.length ≤ es.length := min_le_right _ _
      have hgo : loadEmbeddingsGo chunks idx uidx warns (u :: us') =
          loadEmbeddingsGo (attachRecords chunks idx (es.take (min u.pages.length es.length)))
            (idx + u.pages.length) (uidx + 1)
            (if es.length ≠ u.pages.length then warns ++ [uidx] else warns) us' := by
        conv_lhs => rw [loadEmbeddingsGo]
        rw [hu]
      set minLen := min u.pages.length es.length with hminLen
      set chunks' := attachRecords chunks idx (es.take minLen) with hchunks'
      have htklen : (es.take minLen).length = minLen := by
        simp [hminLen]
      obtain ⟨iha, ihb, ihc, ihd⟩ := ih chunks' (idx + u.pages.length) (uidx + 1)
        (if es.length ≠ u.pages.length then warns ++ [uidx] else warns)
      rw [hgo]
      refine ⟨by rw [iha, hchunks', attachRecords_length], ?_, ?_, ?_⟩
      · intro m hm
        rw [ihb m (by omega), hchunks',
          attachRecords_getElem?_outside _ _ _ _ (Or.inl hm)]
      · intro k hk i hi
        cases k with
        | zero =>
          have hoff : offsetOf (u :: us') 0 = 0 := rfl
          have hgetu : (u :: us').get ⟨0, hk⟩ = u := rfl
          rw [hoff, hgetu]
          rw [hgetu] at hi
          have h1 := ihb (idx + 0 + i) (by omega)
          rw [h1, hchunks']
          by_cases hcase : i < minLen
          · rw [show idx + 0 + i = idx + i by omega,
              attachRecords_getElem?_inside _ _ _ _ (by rw [htklen]; exact hcase)]
            have hgetD : (es.take minLen).getD i ⟨none⟩ = es.getD i ⟨none⟩ := by
              unfold List.getD
              congr 1
              simp [List.getElem?_take, hcase]
            rw [hgetD]
            have hemb : attachedEmb u i = (es.getD i ⟨none⟩).embedding := by
              unfold attachedEmb
              rw [hu]
              simp [hminLen ▸ hcase]
            rw [hemb]
          · rw [attachRecords_getElem?_outside _ _ _ _
              (Or.inr (by rw [htklen]; omega))]
            have hemb : attachedEmb u i = none := by
              unfold attachedEmb
              rw [hu]
              simp only [if_neg (by omega : ¬ i < min u.pages.length es.length)]
            rw [hemb]
            cases chunks[idx + 0 + i]? with
            | none => rfl
            | some c => rfl
        | succ k' =>
          have hk' : k' < us'.length := by simpa using hk
          have hoff : offsetOf (u :: us') (k' + 1) = u.pages.length + offsetOf us' k' := by
            unfold offsetOf
            simp [List.take_succ_cons]
          have hget : (u :: us').get ⟨k' + 1, hk⟩ = us'.get ⟨k', hk'⟩ := rfl
          have harr : idx + offsetOf (u :: us') (k' + 1) + i =
              (idx + u.pages.length) + offsetOf us' k' + i := by rw [hoff]; omega
          rw [hget] at hi
          rw [hget, harr]
          rw [ihc k' hk' i hi, hchunks',
            attachRecords_getElem?_outside _ _ _ _
              (Or.inr (by rw [htklen]; have := offsetOf us' k'; omega))]
      · rw [ihd]
        have hmis : unitMismatch u = decide (es.length ≠ u.pages.length) := by
          unfold unitMismatch; rw [hu]
        have hwc : warnsOf (u :: us') uidx =
            (if unitMismatch u then [uidx] else []) ++ warnsOf us' (uidx + 1) := rfl
        rw [hwc, hmis]
        by_cases hne : es.length ≠ u.pages.length <;> simp [hne]

theorem initCorpus_length (units : List SourceUnit) :
    (initCorpus units).length = (units.map (fun u => u.pages.length)).sum := by
  induction units with
  | nil => rfl
  | cons u us ih =>
    show (u.pages.map _ ++ initCorpus us).length = _
    rw [List.length_append, List.length_map, ih, List.map_cons, List.sum_cons]

theorem initCorpus_getElem? (units : List SourceUnit) :
    ∀ k (hk : k < units.length) i, i < (units.get ⟨k, hk⟩).pages.length →
      (initCorpus units)[offsetOf units k + i]? =
        some ⟨((units.get ⟨k, hk⟩).pages.getD i ⟨none⟩).text, none⟩ := by
  induction units with
  | nil => intro k hk; simp at hk
  | cons u us ih =>
    intro k hk i hi
    cases k with
    | zero =>
      have hgetu : (u :: us).get ⟨0, hk⟩ = u := rfl
      rw [hgetu] at hi
      have hoff : offsetOf (u :: us) 0 = 0 := rfl
      have hcons : initCorpus (u :: us) =
          u.pages.map (fun r => ⟨r.text, none⟩) ++ initCorpus us := rfl
      have hilen : i < (u.pages.map (fun r => (⟨r.text, none⟩ : Chunk))).length := by
        simpa using hi
      rw [hgetu, hoff, Nat.zero_add, hcons, List.getElem?_append, if_pos hilen,
        List.getElem?_map, List.getElem?_eq_getElem hi]
      rw [getD_eq_get _ _ _ hi]
      rfl
    | succ k' =>
      have hk' : k' < us.length := by simpa using hk
      have hgetu : (u :: us).get ⟨k' + 1, hk⟩ = us.get ⟨k', hk'⟩ := rfl
      rw [hgetu] at hi
      have hoff : offsetOf (u :: us) (k' + 1) = u.pages.length + offsetOf us k' := by
        unfold offsetOf
        simp [List.take_succ_cons]
      have hcons : initCorpus (u :: us) =
          u.pages.map (fun r => ⟨r.text, none⟩) ++ initCorpus us := rfl
      rw [hgetu, hoff, hcons]
      have harr : u.pages.length + offsetOf us k' + i =
          (u.pages.map (fun r => (⟨r.text, none⟩ : Chunk))).length +
            (offsetOf us k' + i) := by
        rw [List.length_map]; omega
      rw [harr, List.getElem?_append_right (by omega)]
      have hsub : (u.pages.map (fun r => (⟨r.text, none⟩ : Chunk))).length +
          (offsetOf us k' + i) -
            (u.pages.map (fun r => (⟨r.text, none⟩ : Chunk))).length =
          offsetOf us k' + i := by omega
      rw [hsub]
      exact ih k' hk' i hi

theorem warnsOf_mem_ge (us : List SourceUnit) :
    ∀ uidx m, m ∈ warnsOf us uidx → uidx ≤ m := by
  induction us with
  | nil => intro uidx m hm; simp [warnsOf] at hm
  | cons u us' ih =>
    intro uidx m hm
    have hwc : warnsOf (u :: us') uidx =
        (if unitMismatch u then [uidx] else []) ++ warnsOf us' (uidx + 1) := rfl
    rw [hwc] at hm
    rcases List.mem_append.1 hm with h1 | h2
    · by_cases hu : unitMismatch u = true
      · rw [if_pos hu] at h1
        rw [List.mem_singleton.1 h1]
      · rw [if_neg hu] at h1
        simp at h1
    · exact le_trans (Nat.le_succ _) (ih (uidx + 1) m h2)

theorem warnsOf_count (us : List SourceUnit) :
    ∀ uidx j (hj : j < us.length),
      (warnsOf us uidx).count (uidx + j) =
        if unitMismatch (us.get ⟨j, hj⟩) then 1 else 0 := by
  induction us with
  | nil => intro uidx j hj; simp at hj
  | cons u us' ih =>
    intro uidx j hj
    have hwc : warnsOf (u :: us') uidx =
        (if unitMismatch u then [uidx] else []) ++ warnsOf us' (uidx + 1) := rfl
    rw [hwc, List.count_append]
    cases j with
    | zero =>
      have hgetu : (u :: us').get ⟨0, hj⟩ = u := rfl
      have htail : (warnsOf us' (uidx + 1)).count (uidx + 0) = 0 := by
        rw [List.count_eq_zero]
        intro hmem
        have := warnsOf_mem_ge us' (uidx + 1) _ hmem
        omega
      rw [htail, hgetu, Nat.add_zero]
      by_cases hu : unitMismatch u = true
      · simp [hu]
      · simp [hu]
    | succ j' =>
      have hj' : j' < us'.length := by simpa using hj
      have hgetu : (u :: us').get ⟨j' + 1, hj⟩ = us'.get ⟨j', hj'⟩ := rfl
      have hhead : (if unitMismatch u then [uidx] else []).count (uidx + (j' + 1)) = 0 := by
        by_cases hu : unitMismatch u = true
        · rw [if_pos hu, List.count_eq_zero]
          intro hmem
          rw [List.mem_singleton] at hmem
          omega
        · rw [if_neg hu]; rfl
      rw [hhead, hgetu, Nat.zero_add]
      have harr : uidx + (j' + 1) = (uidx + 1) + j' := by omega
      rw [harr]
      exact ih (uidx + 1) j' hj'

/-- C8.  A text-source unit paired with an embedding-source unit of a
different record count: ingestion completes (one chunk per text record),
attaches embeddings exactly at the first `min(text_count, emb_count)`
positions of that unit (each position receiving its own record's
embedding), leaves the unit's remaining chunks without an embedding, emits
exactly one mismatch warning for that unit, and every unit's chunks keep
their positional alignment (text and embedding both determined by the
unit's own records). -/
theorem embedding_mismatch_partial_alignment (units : List SourceUnit) (j : ℕ)
    (hj : j < units.length) (es : List EmbRec)
    (hemb : (units.get ⟨j, hj⟩).embFile = some es)
    (hne : es.length ≠ (units.get ⟨j, hj⟩).pages.length) :
    ((load_embeddings_for_corpus units).1.length =
      (units.map (fun u => u.pages.length)).sum) ∧
    (∀ i, i < min (units.get ⟨j, hj⟩).pages.length es.length →
      ((load_embeddings_for_corpus units).1[offsetOf units j + i]?).map Chunk.embedding =
        some ((es.getD i ⟨none⟩).embedding)) ∧
    (∀ i, min (units.get ⟨j, hj⟩).pages.length es.length ≤ i →
      i < (units.get ⟨j, hj⟩).pages.length →
      ((load_embeddings_for_corpus units).1[offsetOf units j + i]?).map Chunk.embedding =
        some none) ∧
    ((load_embeddings_for_corpus units).2.count j = 1) ∧
    (∀ k (hk : k < units.length) i, i < (units.get ⟨k, hk⟩).pages.length →
      (load_embeddings_for_corpus units).1[offsetOf units k + i]? =
        some ⟨((units.get ⟨k, hk⟩).pages.getD i ⟨none⟩).text,
              attachedEmb (units.get ⟨k, hk⟩) i⟩) := by
  obtain ⟨ga, _gb, gc, gd⟩ := loadEmbeddingsGo_spec units (initCorpus units) 0 0 []
  have hmaster : ∀ k (hk : k < units.length) i, i < (units.get ⟨k, hk⟩).pages.length →
      (load_embeddings_for_corpus units).1[offsetOf units k + i]? =
        some ⟨((units.get ⟨k, hk⟩).pages.getD i ⟨none⟩).text,
              attachedEmb (units.get ⟨k, hk⟩) i⟩ := by
    intro k hk i hi
    have h1 := gc k hk i hi
    rw [Nat.zero_add] at h1
    unfold load_embeddings_for_corpus
    rw [h1, initCorpus_getElem? units k hk i hi]
    simp only [Option.map_some']
    congr 1
    cases hatt : attachedEmb (units.get ⟨k, hk⟩) i with
    | none => rfl
    | some v => rfl
  refine ⟨?_, ?_, ?_, ?_, hmaster⟩
  · unfold load_embeddings_for_corpus
    rw [ga, initCorpus_length]
  · intro i hi
    have him : i < (units.get ⟨j, hj⟩).pages.length :=
      lt_of_lt_of_le hi (min_le_left _ _)
    rw [hmaster j hj i him]
    have hatt : attachedEmb (units.get ⟨j, hj⟩) i = (es.getD i ⟨none⟩).embedding := by
      unfold attachedEmb
      rw [hemb]
      change (if i < min (units.get ⟨j, hj⟩).pages.length es.length
        then (es.getD i ⟨none⟩).embedding else none) = _
      rw [if_pos hi]
    rw [Option.map_some', hatt]
  · intro i hmin hi
    rw [hmaster j hj i hi]
    have hatt : attachedEmb (units.get ⟨j, hj⟩) i = none := by
      unfold attachedEmb
      rw [hemb]
      simp only [if_neg (show ¬ i < min (units.get ⟨j, hj⟩).pages.length es.length by omega)]
    rw [Option.map_some', hatt]
  · unfold load_embeddings_for_corpus
    rw [gd]
    have hcount := warnsOf_count units 0 j hj
    rw [Nat.zero_add] at hcount
    have hmis : unitMismatch (units.get ⟨j, hj⟩) = true := by
      unfold unitMismatch
      rw [hemb]
      simpa using hne
    rw [List.nil_append, hcount, if_pos hmis]

/-- C8 witness: the §8 scenario — 5 text records, 3 embedding records. -/
theorem embedding_mismatch_partial_alignment_witness :
    (unitsMismatch.get ⟨0, by decide⟩).embFile =
      some [⟨some [1]⟩, ⟨some [2]⟩, ⟨some [3]⟩] ∧
    ([(⟨some [1]⟩ : EmbRec), ⟨some [2]⟩, ⟨some [3]⟩].length ≠
      (unitsMismatch.get ⟨0, by decide⟩).pages.length) ∧
    (load_embeddings_for_corpus unitsMismatch).2.count 0 = 1 := by
  refine ⟨by decide, by decide, ?_⟩
  exact (embedding_mismatch_partial_alignment unitsMismatch 0 (by decide)
    [⟨some [1]⟩, ⟨some [2]⟩, ⟨some [3]⟩] (by decide) (by decide)).2.2.2.1

/-! ## C7: the vector retrieval pipeline -/

/-- `x ↦ x * |x|` is order-reflecting/preserving on ℝ; it carries the final
score `b * sqrt l` to the rational sort key `b * |b| * l`. -/
theorem mul_abs_le_mul_abs_iff (x y : ℝ) : x * |x| ≤ y * |y| ↔ x ≤ y := by
  constructor
  · intro h
    by_contra hlt
    push_neg at hlt
    have hstrict : y * |y| < x * |x| := by
      rcases le_or_lt 0 y with hy | hy
      · have hx : 0 < x := lt_of_le_of_lt hy hlt
        rw [abs_of_nonneg hy, abs_of_pos hx]
        nlinarith
      · rcases le_or_lt 0 x with hx | hx
        · have h1 : y * |y| < 0 := by rw [abs_of_neg hy]; nlinarith
          have h2 : 0 ≤ x * |x| := by rw [abs_of_nonneg hx]; nlinarith
          linarith
        · rw [abs_of_neg hy, abs_of_neg hx]
          nlinarith
    linarith
  · intro h
    rcases le_or_lt 0 x with hx | hx
    · have hy : 0 ≤ y := le_trans hx h
      rw [abs_of_nonneg hx, abs_of_nonneg hy]
      nlinarith
    · rcases le_or_lt 0 y with hy | hy
      · have h1 : x * |x| < 0 := by rw [abs_of_neg hx]; nlinarith
        have h2 : 0 ≤ y * |y| := by rw [abs_of_nonneg hy]; nlinarith
        linarith
      · rw [abs_of_neg hx, abs_of_neg hy]
        nlinarith

theorem finalScoreR_mul_abs (bl : ℚ × ℕ) :
    finalScoreR bl * |finalScoreR bl| = (penKey bl : ℝ) := by
  unfold finalScoreR penKey
  push_cast
  rw [abs_mul, abs_of_nonneg (Real.sqrt_nonneg _)]
  have hs : Real.sqrt bl.2 * Real.sqrt bl.2 = (bl.2 : ℝ) :=
    Real.mul_self_sqrt (by positivity)
  linear_combination ((bl.1 : ℝ) * |(bl.1 : ℝ)|) * hs

theorem penKey_le_iff (a b : ℚ × ℕ) :
    penKey a ≤ penKey b ↔ finalScoreR a ≤ finalScoreR b := by
  have key : (penKey a : ℝ) ≤ (penKey b : ℝ) ↔ finalScoreR a ≤ finalScoreR b := by
    rw [← finalScoreR_mul_abs, ← finalScoreR_mul_abs]
    exact mul_abs_le_mul_abs_iff _ _
  exact (Rat.cast_le (K := ℝ)).symm.trans key

/-- C7 counterexample: a chunk whose text is the non-empty string `" "` and
which carries an embedding is NOT scored by vector retrieval (the code
skips whitespace-only texts), contradicting "scores exactly the chunks
that have both a non-empty text and an embedding". -/
theorem vector_scoring_excludes_blank_text :
    embedCandidates [⟨some " ", some [1]⟩] [1] = [] ∧
    (([⟨some " ", some [1]⟩] : List Chunk).get ⟨0, by decide⟩).text = some " " ∧
    (" " : String) ≠ "" ∧
    (([⟨some " ", some [1]⟩] : List Chunk).get ⟨0, by decide⟩).embedding.isSome := by
  decide

/-- C7 amended.  Vector retrieval scores exactly the chunks that have an
embedding and a non-blank text (at least one non-whitespace character) —
each by its raw dot product; it stable-sorts those descending by raw dot
product, truncates to `MAX_SEARCH_RESULTS`, recomputes each survivor's
final score as `raw * sqrt(character length of its text)`, and returns the
survivors re-sorted descending by that real final score. -/
theorem vector_retrieval_pipeline (corpus : List Chunk) (qv : List ℚ) :
    (∀ i s, ((i, s) ∈ embedCandidates corpus qv ↔
      ∃ c, corpus[i]? = some c ∧ ∃ e, c.embedding = some e ∧
        pyStrip (c.text.getD "").data ≠ [] ∧ s = dotQ e qv)) ∧
    List.Perm (sortStableBy ltScore (embedCandidates corpus qv))
      (embedCandidates corpus qv) ∧
    (sortStableBy ltScore (embedCandidates corpus qv)).Pairwise
      (fun a b => b.2 ≤ a.2) ∧
    (∀ p ∈ (sortStableBy ltScore (embedCandidates corpus qv)).take MAX_SEARCH_RESULTS,
      0 < (textAt corpus p.1).data.length →
      penalize corpus p = (p.1, p.2, (textAt corpus p.1).data.length)) ∧
    List.Perm (embedSearchRanking corpus qv)
      (((sortStableBy ltScore (embedCandidates corpus qv)).take MAX_SEARCH_RESULTS).map
        (penalize corpus)) ∧
    (embedSearchRanking corpus qv).Pairwise
      (fun x y => finalScoreR y.2 ≤ finalScoreR x.2) := by
  have hltneg : ∀ a b c : ℕ × ℚ, notLtFlip ltScore a b → notLtFlip ltScore b c →
      notLtFlip ltScore a c := by
    intro a b c hab hbc
    simp only [notLtFlip, ltScore, decide_eq_true_eq, not_lt] at hab hbc ⊢
    exact le_trans hbc hab
  have hltasym : ∀ a b : ℕ × ℚ, ltScore a b = true → ¬ ltScore b a = true := by
    intro a b hab hba
    simp only [ltScore, decide_eq_true_eq] at hab hba
    exact absurd (lt_trans hab hba) (lt_irrefl _)
  refine ⟨?_, sortStableBy_perm _ _, ?_, ?_, sortStableBy_perm _ _, ?_⟩
  · intro i s
    unfold embedCandidates
    constructor
    · intro hmem
      rcases List.mem_filterMap.1 hmem with ⟨ic, hic, hf⟩
      rcases ic with ⟨j, c⟩
      have hjc : corpus[j]? = some c := by
        have := List.mk_mem_enum_iff_getElem?.1 hic
        exact this
      cases hce : c.embedding with
      | none => rw [hce] at hf; exact absurd hf (by simp)
      | some e =>
        rw [hce] at hf
        simp only at hf
        by_cases hblank : (pyStrip (c.text.getD "").data).isEmpty = true
        · rw [if_pos hblank] at hf
          exact absurd hf (by simp)
        · rw [if_neg hblank] at hf
          have hij : j = i ∧ dotQ e qv = s := by
            have h1 := congrArg Prod.fst (Option.some.inj hf)
            have h2 := congrArg Prod.snd (Option.some.inj hf)
            exact ⟨h1, h2⟩
          refine ⟨c, hij.1 ▸ hjc, e, hce, ?_, hij.2.symm⟩
          intro hnil
          rw [hnil] at hblank
          exact hblank rfl
    · rintro ⟨c, hjc, e, hce, hblank, hs⟩
      refine List.mem_filterMap.2 ⟨(i, c), List.mk_mem_enum_iff_getElem?.2 hjc, ?_⟩
      rw [hce]
      simp only
      rw [if_neg (by
        intro hemp
        exact hblank (by simpa [List.isEmpty_iff] using hemp))]
      rw [hs]
  · have h1 := sortStableBy_pairwise ltScore hltneg hltasym (embedCandidates corpus qv)
    refine h1.imp ?_
    intro a b hab
    simpa [notLtFlip, ltScore] using hab
  · intro p _ hl
    unfold penalize
    rw [if_pos hl]
  · have hfneg : ∀ a b c : ℕ × ℚ × ℕ, notLtFlip ltFinal a b → notLtFlip ltFinal b c →
        notLtFlip ltFinal a c := by
      intro a b c hab hbc
      simp only [notLtFlip, ltFinal, decide_eq_true_eq, not_lt] at hab hbc ⊢
      exact le_trans hbc hab
    have hfasym : ∀ a b : ℕ × ℚ × ℕ, ltFinal a b = true → ¬ ltFinal b a = true := by
      intro a b hab hba
      simp only [ltFinal, decide_eq_true_eq] at hab hba
      exact absurd (lt_trans hab hba) (lt_irrefl _)
    have h1 := sortStableBy_pairwise ltFinal hfneg hfasym
      (((sortStableBy ltScore (embedCandidates corpus qv)).take MAX_SEARCH_RESULTS).map
        (penalize corpus))
    refine h1.imp ?_
    intro x y hxy
    have h2 : penKey y.2 ≤ penKey x.2 := by
      simpa [notLtFlip, ltFinal] using hxy
    exact (penKey_le_iff _ _).1 h2

/-! ## C6: minimal span scoring

The development below verifies that the two-pointer sweep of
`minimal_span_score` computes exactly `bestSpanWidth`: the width of the
shortest word-position window containing at least one occurrence of every
query term.  Throughout, `found_terms` is represented by the derived map
`lastPosIn` over the explicit window (see the note at the definitions). -/

theorem foldr_max_mem (l : List ℕ) (h : l ≠ []) : l.foldr max 0 ∈ l := by
  induction l with
  | nil => exact absurd rfl h
  | cons x xs ih =>
    cases xs with
    | nil => simp
    | cons y ys =>
      rw [List.foldr_cons]
      rcases max_choice x ((y :: ys).foldr max 0) with hc | hc
      · rw [hc]; exact List.mem_cons_self _ _
      · rw [hc]; exact List.mem_cons_of_mem _ (ih (by simp))

theorem le_foldr_max (l : List ℕ) (x : ℕ) (h : x ∈ l) : x ≤ l.foldr max 0 := by
  induction l with
  | nil => simp at h
  | cons y ys ih =>
    rw [List.foldr_cons]
    rcases List.mem_cons.1 h with h1 | h1
    · rw [h1]; exact le_max_left _ _
    · exact le_trans (ih h1) (le_max_right _ _)

theorem foldr_min_mem (l : List ℕ) (s : ℕ) : l.foldr min s ∈ l ∨ l.foldr min s = s := by
  induction l with
  | nil => right; rfl
  | cons x xs ih =>
    rw [List.foldr_cons]
    rcases min_choice x (xs.foldr min s) with hc | hc
    · left; rw [hc]; exact List.mem_cons_self _ _
    · rw [hc]
      rcases ih with h1 | h1
      · left; exact List.mem_cons_of_mem _ h1
      · right; exact h1

theorem foldr_min_le (l : List ℕ) (s : ℕ) (x : ℕ) (h : x ∈ l) : l.foldr min s ≤ x := by
  induction l with
  | nil => simp at h
  | cons y ys ih =>
    rw [List.foldr_cons]
    rcases List.mem_cons.1 h with h1 | h1
    · rw [h1]; exact min_le_left _ _
    · exact le_trans (min_le_right _ _) (ih h1)

theorem mem_posOf (words : List (List Char)) (t : List Char) (p : ℕ) :
    p ∈ posOf words t ↔ words[p]? = some t := by
  unfold posOf
  constructor
  · intro h
    rcases List.mem_map.1 h with ⟨iw, hiw, hp⟩
    rcases List.mem_filter.1 hiw with ⟨hmem, hterm⟩
    have h1 : words[iw.1]? = some iw.2 :=
      List.mk_mem_enum_iff_getElem?.1 (show (iw.1, iw.2) ∈ words.enum by simpa using hmem)
    rw [← hp, h1]
    have : iw.2 = t := by simpa using hterm
    rw [this]
  · intro h
    exact List.mem_map.2 ⟨(p, t),
      List.mem_filter.2 ⟨List.mk_mem_enum_iff_getElem?.2 h, by simp⟩, rfl⟩

theorem posOf_lt_length (words : List (List Char)) (t : List Char) (p : ℕ)
    (h : p ∈ posOf words t) : p < words.length := by
  rw [mem_posOf] at h
  by_contra hge
  rw [List.getElem?_eq_none (by omega)] at h
  exact Option.noConfusion h

/-- With distinct query terms, `len(found_terms) == len(norm_query_terms)`
says exactly that every term occurs in the window. -/
theorem covered_iff (nqts : List (List Char)) (hnodup : nqts.Nodup)
    (w : List (ℕ × List Char)) :
    coveredCode nqts w = true ↔ ∀ t ∈ nqts, ∃ p, (p, t) ∈ w := by
  unfold coveredCode
  rw [List.dedup_eq_self.2 hnodup]
  constructor
  · intro h t ht
    have hsub : (nqts.filter (fun t => w.any (fun pt => pt.2 = t))).Sublist nqts :=
      List.filter_sublist _
    have heq : nqts.filter (fun t => w.any (fun pt => pt.2 = t)) = nqts :=
      hsub.eq_of_length (by simpa using h)
    have : t ∈ nqts.filter (fun t => w.any (fun pt => pt.2 = t)) := by rw [heq]; exact ht
    rcases List.mem_filter.1 this with ⟨_, hany⟩
    rcases List.any_eq_true.1 hany with ⟨pt, hpt, hterm⟩
    exact ⟨pt.1, by
      have : pt.2 = t := by simpa using hterm
      rw [← this]
      exact hpt⟩
  · intro h
    have heq : nqts.filter (fun t => w.any (fun pt => pt.2 = t)) = nqts := by
      rw [List.filter_eq_self]
      intro t ht
      rcases h t ht with ⟨p, hp⟩
      exact List.any_eq_true.2 ⟨(p, t), hp, by simp⟩
    rw [heq]
    simp

theorem lastPosIn_mem (w : List (ℕ × List Char)) (t : List Char) (p : ℕ)
    (hp : (p, t) ∈ w) : (lastPosIn w t, t) ∈ w := by
  unfold lastPosIn
  have hne : (w.filter (fun pt => pt.2 = t)).map (·.1) ≠ [] := by
    intro hnil
    have : (p, t) ∈ w.filter (fun pt => pt.2 = t) :=
      List.mem_filter.2 ⟨hp, by simp⟩
    have : p ∈ (w.filter (fun pt => pt.2 = t)).map (·.1) :=
      List.mem_map.2 ⟨(p, t), this, rfl⟩
    rw [hnil] at this
    simp at this
  have hmem := foldr_max_mem _ hne
  rcases List.mem_map.1 hmem with ⟨pt, hpt, hfst⟩
  rcases List.mem_filter.1 hpt with ⟨hptw, hterm⟩
  have h2 : pt.2 = t := by simpa using hterm
  have : pt = (((w.filter (fun pt => pt.2 = t)).map (·.1)).foldr max 0, t) := by
    rw [← hfst, ← h2]
  rw [← this]
  exact hptw

theorem le_lastPosIn (w : List (ℕ × List Char)) (t : List Char) (p : ℕ)
    (hp : (p, t) ∈ w) : p ≤ lastPosIn w t := by
  unfold lastPosIn
  exact le_foldr_max _ _ (List.mem_map.2 ⟨(p, t),
    List.mem_filter.2 ⟨hp, by simp⟩, rfl⟩)

theorem foundVals_eq (nqts : List (List Char)) (hnodup : nqts.Nodup)
    (w : List (ℕ × List Char)) (hcov : coveredCode nqts w = true) :
    foundVals nqts w = nqts.map (lastPosIn w) := by
  unfold foundVals
  unfold coveredCode at hcov
  rw [List.dedup_eq_self.2 hnodup] at hcov ⊢
  have heq : nqts.filter (fun t => w.any (fun pt => pt.2 = t)) = nqts :=
    (List.filter_sublist _).eq_of_length (by simpa using hcov)
  rw [heq]

/-- Every span the algorithm records is the width of a window that covers
all query terms (both ends being last-occurrence positions inside the
current window). -/
theorem spanFound_covering (words : List (List Char)) (nqts : List (List Char))
    (hnodup : nqts.Nodup) (hne : nqts ≠ []) (w : List (ℕ × List Char))
    (hcov : coveredCode nqts w = true)
    (helems : ∀ e ∈ w, e.1 ∈ posOf words e.2) :
    ∃ a b, a ≤ b ∧ coversWindow words nqts a b ∧ spanFound nqts w = b - a + 1 := by
  have hvals := foundVals_eq nqts hnodup w hcov
  have hvne : nqts.map (lastPosIn w) ≠ [] := by
    intro h0
    exact hne (List.map_eq_nil_iff.1 h0)
  set vals := nqts.map (lastPosIn w) with hdefvals
  set maxV := vals.foldr max 0 with hdefmax
  set minV := vals.foldr min maxV with hdefmin
  have hwmem : ∀ t ∈ nqts, (lastPosIn w t, t) ∈ w := by
    intro t ht
    rcases (covered_iff nqts hnodup w).1 hcov t ht with ⟨p, hp⟩
    exact lastPosIn_mem w t p hp
  have hminmem : minV ∈ vals := by
    rcases foldr_min_mem vals maxV with h1 | h1
    · exact h1
    · rw [← hdefmin] at h1
      rw [h1]
      exact foldr_max_mem vals hvne
  have hminle : ∀ t ∈ nqts, minV ≤ lastPosIn w t := by
    intro t ht
    exact foldr_min_le vals maxV _ (List.mem_map.2 ⟨t, ht, rfl⟩)
  have hmaxge : ∀ t ∈ nqts, lastPosIn w t ≤ maxV := by
    intro t ht
    exact le_foldr_max vals _ (List.mem_map.2 ⟨t, ht, rfl⟩)
  have hminmax : minV ≤ maxV := by
    rcases List.mem_map.1 hminmem with ⟨t, ht, hvt⟩
    rw [← hvt]
    exact hmaxge t ht
  refine ⟨minV, maxV, hminmax, ?_, ?_⟩
  · intro t ht
    refine ⟨lastPosIn w t, helems _ (hwmem t ht), hminle t ht, hmaxge t ht⟩
  · unfold spanFound
    rw [hvals]

/-- The span the algorithm records is bounded when all window positions are
at most `P` and every term has an occurrence at position at least `A` in
the window. -/
theorem spanFound_le (nqts : List (List Char)) (hnodup : nqts.Nodup)
    (hne : nqts ≠ []) (w : List (ℕ × List Char))
    (hcov : coveredCode nqts w = true) (A P : ℕ)
    (hup : ∀ e ∈ w, e.1 ≤ P)
    (hlow : ∀ t ∈ nqts, ∃ p, A ≤ p ∧ (p, t) ∈ w) :
    spanFound nqts w ≤ P - A + 1 := by
  have hvals := foundVals_eq nqts hnodup w hcov
  have hvne : nqts.map (lastPosIn w) ≠ [] := by
    intro h0
    exact hne (List.map_eq_nil_iff.1 h0)
  set vals := nqts.map (lastPosIn w) with hdefvals
  set maxV := vals.foldr max 0 with hdefmax
  set minV := vals.foldr min maxV with hdefmin
  have hwmem : ∀ t ∈ nqts, (lastPosIn w t, t) ∈ w := by
    intro t ht
    rcases (covered_iff nqts hnodup w).1 hcov t ht with ⟨p, hp⟩
    exact lastPosIn_mem w t p hp
  have hmaxle : maxV ≤ P := by
    have hmem := foldr_max_mem vals hvne
    rcases List.mem_map.1 hmem with ⟨t, ht, hvt⟩
    rw [← hdefmax] at hvt
    rw [← hvt]
    exact hup _ (hwmem t ht)
  have hminge : A ≤ minV := by
    have hmem : minV ∈ vals := by
      rcases foldr_min_mem vals maxV with h1 | h1
      · exact h1
      · rw [← hdefmin] at h1
        rw [h1]
        exact foldr_max_mem vals hvne
    rcases List.mem_map.1 hmem with ⟨t, ht, hvt⟩
    rcases hlow t ht with ⟨p, hAp, hpw⟩
    have := le_lastPosIn w t p hpw
    rw [hvt] at this
    omega
  have hspan : spanFound nqts w = maxV - minV + 1 := by
    unfold spanFound
    rw [hvals]
  omega

theorem shrinkLoop_cons (nqts : List (List Char)) (best : ℕ)
    (h : ℕ × List Char) (t : List (ℕ × List Char)) :
    shrinkLoop nqts best (h :: t) =
      if coveredCode nqts (h :: t) = true
      then shrinkLoop nqts (min best (spanFound nqts (h :: t))) t
      else (best, h :: t) := rfl

theorem shrinkLoop_le_best (nqts : List (List Char)) :
    ∀ (w : List (ℕ × List Char)) (best : ℕ), (shrinkLoop nqts best w).1 ≤ best := by
  intro w
  induction w with
  | nil => intro best; exact le_refl _
  | cons h t ih =>
    intro best
    rw [shrinkLoop_cons]
    by_cases hcov : coveredCode nqts (h :: t) = true
    · rw [if_pos hcov]
      exact le_trans (ih _) (min_le_left _ _)
    · rw [if_neg hcov]

theorem shrinkLoop_suffix (nqts : List (List Char)) :
    ∀ (w : List (ℕ × List Char)) (best : ℕ), (shrinkLoop nqts best w).2.IsSuffix w := by
  intro w
  induction w with
  | nil => intro best; exact List.suffix_refl _
  | cons h t ih =>
    intro best
    rw [shrinkLoop_cons]
    by_cases hcov : coveredCode nqts (h :: t) = true
    · rw [if_pos hcov]
      exact (ih _).trans (List.suffix_cons h t)
    · rw [if_neg hcov]

theorem covered_ne_nil (nqts : List (List Char)) (hne : nqts ≠ [])
    (hcov : coveredCode nqts [] = true) : False := by
  unfold coveredCode at hcov
  simp at hcov
  exact hne (List.length_eq_zero.1 hcov.symm)

theorem shrinkLoop_first (nqts : List (List Char)) (hne : nqts ≠ [])
    (w : List (ℕ × List Char)) (best : ℕ) (hcov : coveredCode nqts w = true) :
    (shrinkLoop nqts best w).1 ≤ spanFound nqts w := by
  cases w with
  | nil => exact absurd hcov (fun h => covered_ne_nil nqts hne h)
  | cons h t =>
    rw [shrinkLoop_cons, if_pos hcov]
    exact le_trans (shrinkLoop_le_best nqts t _) (min_le_right _ _)

theorem shrinkLoop_dropped (nqts : List (List Char)) :
    ∀ (w : List (ℕ × List Char)) (best : ℕ) (e : ℕ × List Char),
      e ∈ w → e ∉ (shrinkLoop nqts best w).2 →
      ∃ w'', w''.IsSuffix w ∧ coveredCode nqts w'' = true ∧ w''.head? = some e ∧
        (shrinkLoop nqts best w).1 ≤ spanFound nqts w'' := by
  intro w
  induction w with
  | nil => intro best e he _; simp at he
  | cons h t ih =>
    intro best e he hnot
    rw [shrinkLoop_cons] at hnot ⊢
    by_cases hcov : coveredCode nqts (h :: t) = true
    · rw [if_pos hcov] at hnot ⊢
      by_cases heh : e = h
      · refine ⟨h :: t, List.suffix_refl _, hcov, by rw [heh]; rfl, ?_⟩
        exact le_trans (shrinkLoop_le_best nqts t _) (min_le_right _ _)
      · have het : e ∈ t := by
          rcases List.mem_cons.1 he with h1 | h1
          · exact absurd h1 heh
          · exact h1
        rcases ih _ e het hnot with ⟨w'', hsuf, hcov'', hhead, hle⟩
        exact ⟨w'', hsuf.trans (List.suffix_cons h t), hcov'', hhead, hle⟩
    · rw [if_neg hcov] at hnot
      exact absurd he hnot

theorem shrinkLoop_lower (nqts : List (List Char)) (m : ℕ) :
    ∀ (w : List (ℕ × List Char)) (best : ℕ),
      (∀ w'', w''.IsSuffix w → coveredCode nqts w'' = true → m ≤ spanFound nqts w'') →
      min best m ≤ (shrinkLoop nqts best w).1 := by
  intro w
  induction w with
  | nil => intro best _; exact min_le_left _ _
  | cons h t ih =>
    intro best hw
    rw [shrinkLoop_cons]
    by_cases hcov : coveredCode nqts (h :: t) = true
    · rw [if_pos hcov]
      have hm := hw (h :: t) (List.suffix_refl _) hcov
      have h1 := ih (min best (spanFound nqts (h :: t)))
        (fun w'' hsuf hc => hw w'' (hsuf.trans (List.suffix_cons h t)) hc)
      have h2 : min best m ≤ min (min best (spanFound nqts (h :: t))) m := by omega
      exact le_trans h2 h1
    · rw [if_neg hcov]
      exact min_le_left _ _

theorem sweepLoop_cons (nqts : List (List Char)) (best : ℕ)
    (window : List (ℕ × List Char)) (e : ℕ × List Char)
    (rest : List (ℕ × List Char)) :
    sweepLoop nqts best window (e :: rest) =
      sweepLoop nqts (shrinkLoop nqts best (window ++ [e])).1
        (shrinkLoop nqts best (window ++ [e])).2 rest := rfl

theorem sweepLoop_le_best (nqts : List (List Char)) :
    ∀ (rest window : List (ℕ × List Char)) (best : ℕ),
      sweepLoop nqts best window rest ≤ best := by
  intro rest
  induction rest with
  | nil => intro window best; exact le_refl _
  | cons e rest' ih =>
    intro window best
    rw [sweepLoop_cons]
    exact le_trans (ih _ _) (shrinkLoop_le_best nqts _ best)

/-- Lower bound: the sweep never records a value below the minimum covering
width `m`. -/
theorem sweepLoop_lower (words : List (List Char)) (nqts : List (List Char))
    (hnodup : nqts.Nodup) (hne : nqts ≠ []) (m : ℕ)
    (hm : ∀ a b, a ≤ b → coversWindow words nqts a b → m ≤ b - a + 1) :
    ∀ (rest window : List (ℕ × List Char)) (best : ℕ),
      (∀ e ∈ window ++ rest, e.1 ∈ posOf words e.2) →
      min best m ≤ sweepLoop nqts best window rest := by
  intro rest
  induction rest with
  | nil => intro window best _; exact min_le_left _ _
  | cons e rest' ih =>
    intro window best helems
    rw [sweepLoop_cons]
    have hwinel : ∀ x ∈ window ++ [e], x.1 ∈ posOf words x.2 := by
      intro x hx
      rcases List.mem_append.1 hx with h1 | h1
      · exact helems x (List.mem_append_left _ h1)
      · rw [List.mem_singleton.1 h1]
        exact helems e (List.mem_append_right _ (List.mem_cons_self _ _))
    have hshrink : min best m ≤ (shrinkLoop nqts best (window ++ [e])).1 := by
      apply shrinkLoop_lower
      intro w'' hsuf hcov
      rcases spanFound_covering words nqts hnodup hne w'' hcov
        (fun x hx => hwinel x (hsuf.sublist.mem hx)) with ⟨a, b, hab, hcw, hspan⟩
      rw [hspan]
      exact hm a b hab hcw
    have hrec := ih (shrinkLoop nqts best (window ++ [e])).2
      (shrinkLoop nqts best (window ++ [e])).1
      (by
        intro x hx
        rcases List.mem_append.1 hx with h1 | h1
        · exact hwinel x ((shrinkLoop_suffix nqts _ best).sublist.mem h1)
        · exact helems x (List.mem_append_right _ (List.mem_cons_of_mem _ h1)))
    have hmin : min best m ≤ min (shrinkLoop nqts best (window ++ [e])).1 m :=
      le_min hshrink (min_le_right _ _)
    exact le_trans hmin hrec

/-- Upper bound: as soon as a covering assignment lies within `[A, P]` with
its rightmost element still ahead in the stream, the sweep's result is at
most `P - A + 1`. -/
theorem sweepLoop_upper (words : List (List Char)) (nqts : List (List Char))
    (hnodup : nqts.Nodup) (hne : nqts ≠ []) (A P : ℕ) (tstar : List Char)
    (hwordsP : words[P]? = some tstar) :
    ∀ (rest window : List (ℕ × List Char)) (best : ℕ),
      ((window ++ rest).Pairwise (fun a b => a.1 ≤ b.1)) →
      (∀ e ∈ window ++ rest, words[e.1]? = some e.2) →
      (∀ t ∈ nqts, ∃ p, A ≤ p ∧ p ≤ P ∧ (p, t) ∈ window ++ rest) →
      ((P, tstar) ∈ rest) →
      sweepLoop nqts best window rest ≤ P - A + 1 := by
  intro rest
  induction rest with
  | nil => intro window best _ _ _ hstar; simp at hstar
  | cons e rest' ih =>
    intro window best hsorted hterm hchoice hstar
    rw [sweepLoop_cons]
    have hassoc : window ++ e :: rest' = (window ++ [e]) ++ rest' := by
      rw [List.append_assoc]
      rfl
    obtain ⟨hpw, hper, hpcross⟩ := List.pairwise_append.1 hsorted
    -- positions in window ++ [e] are all at most P
    have heP : e.1 ≤ P := by
      rcases List.mem_cons.1 hstar with h1 | h1
      · rw [← h1]
      · exact (List.pairwise_cons.1 hper).1 (P, tstar) h1
    have hwinP : ∀ x ∈ window ++ [e], x.1 ≤ P := by
      intro x hx
      rcases List.mem_append.1 hx with h1 | h1
      · exact le_trans (hpcross x h1 e (List.mem_cons_self _ _)) heP
      · rw [List.mem_singleton.1 h1]
        exact heP
    have hsubw : (window ++ [e]).Sublist (window ++ e :: rest') := by
      rw [hassoc]
      exact List.sublist_append_left _ _
    have hsortw : (window ++ [e]).Pairwise (fun a b => a.1 ≤ b.1) :=
      hsorted.sublist hsubw
    by_cases hestar : e = (P, tstar)
    · -- the rightmost chosen occurrence has just been appended:
      -- the window covers all terms and its recorded span is within [A, P]
      have hchoice' : ∀ t ∈ nqts, ∃ p, A ≤ p ∧ p ≤ P ∧ (p, t) ∈ window ++ [e] := by
        intro t ht
        rcases hchoice t ht with ⟨p, hA, hP, hmem⟩
        refine ⟨p, hA, hP, ?_⟩
        rcases List.mem_append.1 hmem with h1 | h1
        · exact List.mem_append_left _ h1
        · rcases List.mem_cons.1 h1 with h2 | h2
          · rw [h2]
            exact List.mem_append_right _ (List.mem_singleton_self _)
          · have hPe : e.1 ≤ p := (List.pairwise_cons.1 hper).1 (p, t) h2
            have hpe : p = P := by
              rw [hestar] at hPe
              omega
            have hterm1 : words[p]? = some t :=
              hterm (p, t) (List.mem_append_right _ (List.mem_cons_of_mem _ h2))
            have hteq : t = tstar := by
              rw [hpe, hwordsP] at hterm1
              exact (Option.some.inj hterm1).symm
            rw [hpe, hteq, ← hestar]
            exact List.mem_append_right _ (List.mem_singleton_self _)
      have hcovw : coveredCode nqts (window ++ [e]) = true := by
        rw [covered_iff nqts hnodup]
        intro t ht
        rcases hchoice' t ht with ⟨p, _, _, hmem⟩
        exact ⟨p, hmem⟩
      have hspan : spanFound nqts (window ++ [e]) ≤ P - A + 1 := by
        apply spanFound_le nqts hnodup hne _ hcovw A P hwinP
        intro t ht
        rcases hchoice' t ht with ⟨p, hA, _, hmem⟩
        exact ⟨p, hA, hmem⟩
      exact le_trans (sweepLoop_le_best nqts rest' _ _)
        (le_trans (shrinkLoop_first nqts hne _ best hcovw) hspan)
    · have hstar' : (P, tstar) ∈ rest' := by
        rcases List.mem_cons.1 hstar with h1 | h1
        · exact absurd h1.symm hestar
        · exact h1
      by_cases hkeep : ∀ t ∈ nqts, ∃ p, A ≤ p ∧ p ≤ P ∧
          (p, t) ∈ (shrinkLoop nqts best (window ++ [e])).2 ++ rest'
      · -- no chosen occurrence was dropped: recurse
        have hsub2 : ((shrinkLoop nqts best (window ++ [e])).2 ++ rest').Sublist
            (window ++ e :: rest') := by
          rw [hassoc]
          exact ((shrinkLoop_suffix nqts _ best).sublist).append (List.Sublist.refl rest')
        refine ih _ _ (hsorted.sublist hsub2) ?_ hkeep hstar'
        intro x hx
        exact hterm x (hsub2.mem hx)
      · -- a chosen occurrence was dropped: at that moment the window was
        -- covering and its span already within [A, P]
        push_neg at hkeep
        rcases hkeep with ⟨t0, ht0, hnone⟩
        rcases hchoice t0 ht0 with ⟨p0, hA0, hP0, hmem0⟩
        have hnotin : (p0, t0) ∉ (shrinkLoop nqts best (window ++ [e])).2 ++ rest' :=
          hnone p0 hA0 hP0
        have hw' : (p0, t0) ∈ window ++ [e] := by
          rcases List.mem_append.1 hmem0 with h1 | h1
          · exact List.mem_append_left _ h1
          · rcases List.mem_cons.1 h1 with h2 | h2
            · rw [h2]
              exact List.mem_append_right _ (List.mem_singleton_self _)
            · exact absurd (List.mem_append_right _ h2) hnotin
        have hnot2 : (p0, t0) ∉ (shrinkLoop nqts best (window ++ [e])).2 := by
          intro hc
          exact hnotin (List.mem_append_left _ hc)
        rcases shrinkLoop_dropped nqts _ best _ hw' hnot2 with
          ⟨w'', hsuf, hcovw'', hhead, hle⟩
        have hspan : spanFound nqts w'' ≤ P - A + 1 := by
          apply spanFound_le nqts hnodup hne _ hcovw'' A P
          · intro x hx
            exact hwinP x (hsuf.sublist.mem hx)
          · -- every term occurs in w'' at a position at least the head's,
            -- which is the chosen occurrence p0 ≥ A
            intro t ht
            rcases (covered_iff nqts hnodup w'').1 hcovw'' t ht with ⟨q, hq⟩
            refine ⟨q, ?_, hq⟩
            cases w'' with
            | nil => simp at hq
            | cons h0 tail =>
              have hh0 : h0 = (p0, t0) := Option.some.inj hhead
              have hsort'' : (h0 :: tail).Pairwise (fun a b => a.1 ≤ b.1) :=
                hsortw.sublist hsuf.sublist
              rcases List.mem_cons.1 hq with h1 | h1
              · have hq1 : q = p0 := by
                  have h2 := congrArg Prod.fst h1
                  rw [hh0] at h2
                  exact h2
                omega
              · have h2 := (List.pairwise_cons.1 hsort'').1 (q, t) h1
                rw [hh0] at h2
                simp only at h2
                omega
        exact le_trans (sweepLoop_le_best nqts rest' _ _) (le_trans hle hspan)

theorem mem_aps (words nqts : List (List Char)) (e : ℕ × List Char) :
    e ∈ nqts.flatMap (fun t => (posOf words t).map (fun p => (p, t))) ↔
      e.2 ∈ nqts ∧ e.1 ∈ posOf words e.2 := by
  constructor
  · intro h
    rcases List.mem_flatMap.1 h with ⟨t, ht, hmem⟩
    rcases List.mem_map.1 hmem with ⟨p, hp, hpe⟩
    rw [← hpe]
    exact ⟨ht, hp⟩
  · intro h
    exact List.mem_flatMap.2 ⟨e.2, h.1,
      List.mem_map.2 ⟨e.1, h.2, Prod.mk.eta⟩⟩

/-- The central algorithm-equals-specification result: for distinct,
non-empty, all-present query terms, the two-pointer sweep over the sorted
occurrence list computes exactly the minimal covering window width. -/
theorem bestSpan_compute (words nqts : List (List Char))
    (hnodup : nqts.Nodup) (hne : nqts ≠ [])
    (hall : ∀ t ∈ nqts, posOf words t ≠ []) :
    sweepLoop nqts (words.length + 1) []
      (sortStableBy (fun a b => a.1 < b.1)
        (nqts.flatMap (fun t => (posOf words t).map (fun p => (p, t))))) =
      bestSpanWidth words nqts := by
  set aps := nqts.flatMap (fun t => (posOf words t).map (fun p => (p, t))) with hdefaps
  set apsS := sortStableBy (fun a b => a.1 < b.1) aps with hdefapsS
  have hmemS : ∀ e, e ∈ apsS ↔ e.2 ∈ nqts ∧ e.1 ∈ posOf words e.2 := by
    intro e
    rw [hdefapsS, mem_sortStableBy, hdefaps, mem_aps]
  have hsorted : apsS.Pairwise (fun a b => a.1 ≤ b.1) := by
    have h1 := sortStableBy_pairwise (fun a b : ℕ × List Char => a.1 < b.1)
      (by
        intro a b c hab hbc
        simp only [notLtFlip, decide_eq_true_eq, not_lt] at hab hbc ⊢
        omega)
      (by
        intro a b hab hba
        simp only [decide_eq_true_eq] at hab hba
        omega)
      aps
    refine h1.imp ?_
    intro a b h
    simp only [notLtFlip, decide_eq_true_eq, not_lt] at h
    exact h
  have hterm : ∀ e ∈ apsS, words[e.1]? = some e.2 := by
    intro e he
    exact (mem_posOf words e.2 e.1).1 ((hmemS e).1 he).2
  -- the specification set and its distinguished members
  set S := {w | ∃ a b, a ≤ b ∧ coversWindow words nqts a b ∧ w = b - a + 1} with hdefS
  have hfull : (words.length + 1) ∈ S := by
    refine ⟨0, words.length, Nat.zero_le _, ?_, by omega⟩
    intro t ht
    rcases List.exists_mem_of_ne_nil _ (hall t ht) with ⟨p, hp⟩
    exact ⟨p, hp, Nat.zero_le _, le_of_lt (posOf_lt_length words t p hp)⟩
  have hSne : S.Nonempty := ⟨_, hfull⟩
  have hm_le : bestSpanWidth words nqts ≤ words.length + 1 := Nat.sInf_le hfull
  apply le_antisymm
  · -- upper bound via the optimal window
    rcases Nat.sInf_mem hSne with ⟨a0, b0, hab0, hcov0, hw0⟩
    set cands := apsS.filter (fun e => a0 ≤ e.1 ∧ e.1 ≤ b0) with hdefcands
    have hcand : ∀ t ∈ nqts, ∃ p, (p, t) ∈ cands ∧ a0 ≤ p ∧ p ≤ b0 := by
      intro t ht
      rcases hcov0 t ht with ⟨p, hocc, hap, hpb⟩
      refine ⟨p, List.mem_filter.2 ⟨(hmemS (p, t)).2 ⟨ht, hocc⟩, by
        simp only [decide_eq_true_eq]
        exact ⟨hap, hpb⟩⟩, hap, hpb⟩
    have hcne : cands ≠ [] := by
      rcases List.exists_mem_of_ne_nil _ hne with ⟨t0, ht0⟩
      rcases hcand t0 ht0 with ⟨p, hp, _, _⟩
      intro h0
      rw [h0] at hp
      simp at hp
    have hmapne : cands.map Prod.fst ≠ [] := by
      intro h0
      exact hcne (List.map_eq_nil_iff.1 h0)
    set P := (cands.map Prod.fst).foldr max 0 with hdefP
    have hPmem : P ∈ cands.map Prod.fst := foldr_max_mem _ hmapne
    rcases List.mem_map.1 hPmem with ⟨eP, hePc, hePfst⟩
    have hePS : eP ∈ apsS := (List.mem_filter.1 hePc).1
    have hePbounds : a0 ≤ eP.1 ∧ eP.1 ≤ b0 := by
      have := (List.mem_filter.1 hePc).2
      simpa using this
    have hwordsP : words[P]? = some eP.2 := by
      rw [← hePfst]
      exact hterm eP hePS
    have htstar : eP.2 ∈ nqts := ((hmemS eP).1 hePS).1
    have hupper := sweepLoop_upper words nqts hnodup hne a0 P eP.2 hwordsP apsS []
      (words.length + 1)
      (by simpa using hsorted)
      (by simpa using hterm)
      (by
        intro t ht
        rcases hcand t ht with ⟨p, hpc, hap, hpb⟩
        refine ⟨p, hap, ?_, by simpa using (List.mem_filter.1 hpc).1⟩
        exact le_foldr_max _ _ (List.mem_map.2 ⟨(p, t), hpc, rfl⟩))
      (by
        have : eP = (P, eP.2) := by
          rw [← hePfst]
        rw [← this]
        exact hePS)
    have hbsw : bestSpanWidth words nqts = sInf S := rfl
    rw [hbsw, hw0]
    refine le_trans hupper ?_
    have hPb : P ≤ b0 := by
      rw [← hePfst]
      exact hePbounds.2
    omega
  · -- lower bound
    have hlower := sweepLoop_lower words nqts hnodup hne (bestSpanWidth words nqts)
      (fun a b hab hcov => Nat.sInf_le ⟨a, b, hab, hcov, rfl⟩)
      apsS [] (words.length + 1)
      (by
        intro e he
        exact ((hmemS e).1 (by simpa using he)).2)
    have : min (words.length + 1) (bestSpanWidth words nqts) = bestSpanWidth words nqts := by
      omega
    rw [this] at hlower
    exact hlower

theorem minimal_span_score_eq (text : String) (query_terms : List (List Char)) :
    minimal_span_score text query_terms =
      (if (query_terms.map normalize).any
          (fun t => posOf (pySplit (normalize text.data)) t = []) then (0 : ℚ)
       else 1 / (sweepLoop (query_terms.map normalize)
          ((pySplit (normalize text.data)).length + 1) []
          (sortStableBy (fun a b => a.1 < b.1)
            ((query_terms.map normalize).flatMap
              (fun t => (posOf (pySplit (normalize text.data)) t).map (fun p => (p, t))))) + 1)) :=
  rfl

/-- C6.  For a non-empty set of (normalized) query terms: the minimal span
score is 0 exactly when some query term has no whole-word occurrence in
the normalized text; otherwise it equals `1 / (best_span_width + 1)` where
`best_span_width` is the width (in word positions) of the shortest
contiguous window containing at least one occurrence of every distinct
query term; and the span rerank re-sorts candidates descending by this
score with candidates of identical score retaining their relative
retrieval order. -/
theorem minimal_span_score_spec (text : String) (query_terms : List (List Char))
    (hne : query_terms.map normalize ≠ [])
    (hnodup : (query_terms.map normalize).Nodup) :
    (minimal_span_score text query_terms = 0 ↔
      ∃ t ∈ query_terms.map normalize, posOf (pySplit (normalize text.data)) t = []) ∧
    ((∀ t ∈ query_terms.map normalize, posOf (pySplit (normalize text.data)) t ≠ []) →
      minimal_span_score text query_terms =
        1 / (bestSpanWidth (pySplit (normalize text.data)) (query_terms.map normalize) + 1)) ∧
    (∀ (corpus : List Chunk) (top_docs : List (ℕ × ℚ)),
      List.Perm (rerank_minimal_span corpus top_docs query_terms)
        (top_docs.map (fun ds => (ds.1, minimal_span_score (textAt corpus ds.1) query_terms))) ∧
      (rerank_minimal_span corpus top_docs query_terms).Pairwise (fun a b => b.2 ≤ a.2) ∧
      (∀ q : ℚ, (rerank_minimal_span corpus top_docs query_terms).filter
          (fun ds => ds.2 = q) =
        (top_docs.map (fun ds => (ds.1, minimal_span_score (textAt corpus ds.1)
          query_terms))).filter (fun ds => ds.2 = q))) := by
  set nqts := query_terms.map normalize with hdefn
  set words := pySplit (normalize text.data) with hdefw
  refine ⟨?_, ?_, ?_⟩
  · constructor
    · intro h0
      by_contra habs
      push_neg at habs
      have hany : nqts.any (fun t => posOf words t = []) = false := by
        rw [List.any_eq_false]
        intro t ht
        simpa using habs t ht
      rw [minimal_span_score_eq, ← hdefn, ← hdefw, if_neg (by rw [hany]; simp)] at h0
      have hpos : ((sweepLoop nqts (words.length + 1) []
          (sortStableBy (fun a b => a.1 < b.1)
            (nqts.flatMap (fun t => (posOf words t).map (fun p => (p, t))))) : ℚ) + 1) ≠ 0 := by
        positivity
      exact absurd h0 (div_ne_zero one_ne_zero hpos)
    · rintro ⟨t, ht, habs⟩
      rw [minimal_span_score_eq, ← hdefn, ← hdefw, if_pos]
      exact List.any_eq_true.2 ⟨t, ht, by simpa using habs⟩
  · intro hall
    have hany : nqts.any (fun t => posOf words t = []) = false := by
      rw [List.any_eq_false]
      intro t ht
      simpa using hall t ht
    rw [minimal_span_score_eq, ← hdefn, ← hdefw, if_neg (by rw [hany]; simp),
      bestSpan_compute words nqts hnodup hne hall]
  · intro corpus top_docs
    have hltneg : ∀ a b c : ℕ × ℚ, notLtFlip ltScore a b → notLtFlip ltScore b c →
        notLtFlip ltScore a c := by
      intro a b c hab hbc
      simp only [notLtFlip, ltScore, decide_eq_true_eq, not_lt] at hab hbc ⊢
      exact le_trans hbc hab
    have hltasym : ∀ a b : ℕ × ℚ, ltScore a b = true → ¬ ltScore b a = true := by
      intro a b hab hba
      simp only [ltScore, decide_eq_true_eq] at hab hba
      exact absurd (lt_trans hab hba) (lt_irrefl _)
    refine ⟨sortStableBy_perm _ _, ?_, ?_⟩
    · have h1 := sortStableBy_pairwise ltScore hltneg hltasym
        (top_docs.map (fun ds => (ds.1, minimal_span_score (textAt corpus ds.1) query_terms)))
      refine h1.imp ?_
      intro a b hab
      simpa [notLtFlip, ltScore] using hab
    · intro q
      apply sortStableBy_filter_of_class
      intro a b ha hb
      have ha' : a.2 = q := by simpa using ha
      have hb' : b.2 = q := by simpa using hb
      simp [ltScore, ha', hb']

/-- C6 witness: the spec's §8 example — text `"a b c a target b"`, query
terms `{a, target}`. -/
theorem minimal_span_score_spec_witness :
    (["a".data, "target".data].map normalize ≠ [] ∧
      (["a".data, "target".data].map normalize).Nodup ∧
      (∀ t ∈ ["a".data, "target".data].map normalize,
        posOf (pySplit (normalize "a b c a target b".data)) t ≠ [])) ∧
    minimal_span_score "a b c a target b" ["a".data, "target".data] =
      1 / (bestSpanWidth (pySplit (normalize "a b c a target b".data))
        (["a".data, "target".data].map normalize) + 1) := by
  refine ⟨⟨by decide, by decide, by decide⟩, ?_⟩
  exact (minimal_span_score_spec "a b c a target b" ["a".data, "target".data]
    (by decide) (by decide)).2.1 (by decide)

end BM25Search
